import Mathlib

/-!
# BinarySearchTree.h: a shallow embedding

The C++ header defines `BinaryNode<T>` (two owning child pointers and an immutable
value) and `BinarySearchTree<T>` (a root pointer `m_head` with `insert`, `find`,
`inOrder` and `BreadthFirstSearch`).  Ownership is tree shaped, so a `NodePtr` is
embedded as the finite tree it owns, and a pointer *into* the tree is embedded as
the path of left/right steps that reaches it from `m_head`.

The element type `T` is used through `<` and `==` only; it is embedded as a
`LinearOrder`, that is a strict total order whose equality is consistent with it.
-/

namespace BSTree

/-- The type `std::shared_ptr<BinaryNode<T>>`: either null or the node it owns, with the
fields of `BinaryNode` in declaration order (`left`, `right`, `value`). -/
inductive NodePtr (T : Type) where
  | null : NodePtr T
  | node (left : NodePtr T) (right : NodePtr T) (value : T) : NodePtr T
  deriving DecidableEq, Repr

/-- The pointee of a non-null `NodePtr`: the struct `BinaryNode<T>`. -/
structure BinaryNode (T : Type) where
  left : NodePtr T
  right : NodePtr T
  value : T
  deriving DecidableEq, Repr

/-- The class `BinarySearchTree<T>`: its only data member is `m_head`. -/
structure BinarySearchTree (T : Type) where
  m_head : NodePtr T
  deriving DecidableEq, Repr

/-- One step from a node to a child: `->left` or `->right`. -/
inductive Dir where
  | left : Dir
  | right : Dir
  deriving DecidableEq, Repr

variable {T : Type}

/-- The shared pointer back to a node. -/
def BinaryNode.toPtr (n : BinaryNode T) : NodePtr T :=
  NodePtr.node n.left n.right n.value

/-- Number of nodes owned by a pointer. -/
def NodePtr.size : NodePtr T → Nat
  | NodePtr.null => 0
  | NodePtr.node l r _ => l.size + r.size + 1

/-- Number of nodes on the longest path from this pointer down to a leaf. -/
def NodePtr.height : NodePtr T → Nat
  | NodePtr.null => 0
  | NodePtr.node l r _ => max l.height r.height + 1

/-- Follow a path of child links; null as soon as a link on the way is null. -/
def NodePtr.getAt : NodePtr T → List Dir → NodePtr T
  | t, [] => t
  | NodePtr.null, _ :: _ => NodePtr.null
  | NodePtr.node l _ _, Dir.left :: p => l.getAt p
  | NodePtr.node _ r _, Dir.right :: p => r.getAt p

/-- The value stored in the node a path leads to, if it leads to a node. -/
def NodePtr.valueAt (t : NodePtr T) (p : List Dir) : Option T :=
  match t.getAt p with
  | NodePtr.null => none
  | NodePtr.node _ _ v => some v

/-- A default-constructed tree: `m_head` is null. -/
def BinarySearchTree.empty : BinarySearchTree T :=
  ⟨NodePtr.null⟩

section Operations

variable [LinearOrder T]

/-- The `while (1)` loop of `insert`.  `node` is what the local `node` points to,
`here` the path from `m_head` along which it was reached, and `parent` the local
`parent` as a path from `m_head` (`none` for a null pointer).  The result is the
value of `parent` when the loop breaks. -/
def insertLoop (value : T) : NodePtr T → List Dir → Option (List Dir) → Option (List Dir)
  | NodePtr.null, _, parent => parent
  | NodePtr.node l r v, here, _ =>
    if value < v then insertLoop value l (here ++ [Dir.left]) (some here)
    else insertLoop value r (here ++ [Dir.right]) (some here)

/-- The two assignments `parent->left = std::move(newNode)` and
`parent->right = std::move(newNode)`, selected by `value < parent->value`, carried
out in the node that the path `parent` leads to.  The child link is overwritten
whatever it held.  `insert` calls this only under `if (!parent) ... else`, with a
path produced by the loop; on a path that leaves the tree nothing is assigned. -/
def attach (value : T) (newNode : NodePtr T) : List Dir → NodePtr T → NodePtr T
  | _, NodePtr.null => NodePtr.null
  | [], NodePtr.node l r v =>
    if value < v then NodePtr.node newNode r v else NodePtr.node l newNode v
  | Dir.left :: p, NodePtr.node l r v => NodePtr.node (attach value newNode p l) r v
  | Dir.right :: p, NodePtr.node l r v => NodePtr.node l (attach value newNode p r) v

/-- The initial value of `parent` in `insert`: `auto parent = node` with
`node = m_head`. -/
def initialParent : NodePtr T → Option (List Dir)
  | NodePtr.null => none
  | NodePtr.node _ _ _ => some []

/-- The member `BinarySearchTree::insert`. -/
def BinarySearchTree.insert (t : BinarySearchTree T) (value : T) : BinarySearchTree T :=
  let newNode : NodePtr T := NodePtr.node NodePtr.null NodePtr.null value
  match insertLoop value t.m_head [] (initialParent t.m_head) with
  | none => ⟨newNode⟩
  | some parent => ⟨attach value newNode parent t.m_head⟩

/-- The member `BinarySearchTree::_find`: the returned pointer is embedded as the node it
points to (with its subtrees), null when there is none. -/
def _find (value : T) : NodePtr T → NodePtr T
  | NodePtr.null => NodePtr.null
  | NodePtr.node l r v =>
    if value = v then NodePtr.node l r v
    else if value < v then _find value l
    else _find value r

/-- The member `BinarySearchTree::find`. -/
def BinarySearchTree.find (t : BinarySearchTree T) (value : T) : NodePtr T :=
  _find value t.m_head

/-- The pointer that `_find` returns, as the path from `node` to the node it
points to, `none` for the null pointer: the same descent as `_find`, keeping
track of the links followed. -/
def _findPath (value : T) : NodePtr T → Option (List Dir)
  | NodePtr.null => none
  | NodePtr.node l r v =>
    if value = v then some []
    else if value < v then (_findPath value l).map fun p => Dir.left :: p
    else (_findPath value r).map fun p => Dir.right :: p

/-- The pointer that `find` returns, as a path from `m_head`. -/
def BinarySearchTree.findPath (t : BinarySearchTree T) (value : T) : Option (List Dir) :=
  _findPath value t.m_head

/-- A sequence of `insert` calls on a freshly constructed tree, in list order. -/
def insertAll (xs : List T) : BinarySearchTree T :=
  xs.foldl BinarySearchTree.insert BinarySearchTree.empty

end Operations

/-- The member `BinarySearchTree::_inOrder`: `values` is the vector passed by reference, the
result is its content on return. -/
def _inOrder : NodePtr T → List T → List T
  | NodePtr.null, values => values
  | NodePtr.node l r v, values => _inOrder r (_inOrder l values ++ [v])

/-- The member `BinarySearchTree::inOrder`. -/
def BinarySearchTree.inOrder (t : BinarySearchTree T) : List T :=
  _inOrder t.m_head []

/-- The guarded `d.push_back(p)` of `BreadthFirstSearch`: `if (p) d.push_back(p)`. -/
def pushBackIf (d : List (BinaryNode T)) : NodePtr T → List (BinaryNode T)
  | NodePtr.null => d
  | NodePtr.node l r v => d ++ [⟨l, r, v⟩]

/-- The locals of the loop of `BreadthFirstSearch`: the deque `d` and the vector
`values`.  Every pointer pushed on `d` has been tested non-null, so the entries
of `d` are nodes. -/
structure BfsState (T : Type) where
  d : List (BinaryNode T)
  values : List T
  deriving DecidableEq, Repr

/-- One iteration of `while (!d.empty())`: `none` when the loop condition fails,
otherwise the state after the body. -/
def bfsStep : BfsState T → Option (BfsState T)
  | ⟨[], _⟩ => none
  | ⟨front :: d, values⟩ =>
    some ⟨pushBackIf (pushBackIf d front.left) front.right, values ++ [front.value]⟩

/-- Total number of nodes still reachable from the deque. -/
def queueWeight (d : List (BinaryNode T)) : Nat :=
  (d.map fun n => n.toPtr.size).sum

/-- The loop `while (!d.empty()) { ... }` run to completion: the final `values`. -/
def bfsLoop (s : BfsState T) : List T :=
  match h : bfsStep s with
  | none => s.values
  | some s' => bfsLoop s'
termination_by queueWeight s.d
decreasing_by
  obtain ⟨d, values⟩ := s
  cases d with
  | nil => simp [bfsStep] at h
  | cons front d =>
    simp only [bfsStep, Option.some.injEq] at h
    subst h
    have push : ∀ (q : List (BinaryNode T)) (p : NodePtr T),
        queueWeight (pushBackIf q p) = queueWeight q + p.size := by
      intro q p
      cases p <;> simp [pushBackIf, queueWeight, NodePtr.size, BinaryNode.toPtr]
    simp only [push]
    simp only [queueWeight, BinaryNode.toPtr, NodePtr.size, List.map_cons, List.sum_cons]
    omega

/-- The first `k` iterations of the loop of `BreadthFirstSearch`: the state after
them, `none` when the loop has stopped before. -/
def bfsRun : Nat → BfsState T → Option (BfsState T)
  | 0, s => some s
  | k + 1, s =>
    match bfsStep s with
    | none => none
    | some s' => bfsRun k s'

/-- The locals when the loop of `BreadthFirstSearch` is reached: `d = { m_head }`
and `values` empty (for a null `m_head` the function has returned before). -/
def bfsInit (m_head : NodePtr T) : BfsState T :=
  ⟨pushBackIf [] m_head, []⟩

/-- The body of `BreadthFirstSearch` up to `return values;`: the content of the
local `std::vector<T> values` when the function returns. -/
def bfsValues : NodePtr T → List T
  | NodePtr.null => []
  | NodePtr.node l r v => bfsLoop ⟨[⟨l, r, v⟩], []⟩

/-- The member `BinarySearchTree::BreadthFirstSearch`.  Its declared return type is
`std::vector<int>` while the local it returns is a `std::vector<T>`; the member
is therefore well formed for `T = int` only, and that instance is embedded. -/
def BinarySearchTree.BreadthFirstSearch (t : BinarySearchTree Int) : List Int :=
  bfsValues t.m_head

/-! ## Specification-side notions -/

/-- The values of a subtree, left subtree first, then the node, then the right
subtree. -/
def NodePtr.toList : NodePtr T → List T
  | NodePtr.null => []
  | NodePtr.node l r v => l.toList ++ v :: r.toList

/-- Every value stored under a pointer satisfies `P`. -/
def NodePtr.All (P : T → Prop) : NodePtr T → Prop
  | NodePtr.null => True
  | NodePtr.node l r v => P v ∧ l.All P ∧ r.All P

instance NodePtr.decidableAll (P : T → Prop) [DecidablePred P] :
    (t : NodePtr T) → Decidable (t.All P)
  | NodePtr.null => isTrue trivial
  | NodePtr.node l r v =>
    have := NodePtr.decidableAll P l
    have := NodePtr.decidableAll P r
    inferInstanceAs (Decidable (P v ∧ l.All P ∧ r.All P))

/-- The values of the nodes at depth `d` below a pointer, from left to right. -/
def NodePtr.levelAt : Nat → NodePtr T → List T
  | _, NodePtr.null => []
  | 0, NodePtr.node _ _ v => [v]
  | d + 1, NodePtr.node l r _ => NodePtr.levelAt d l ++ NodePtr.levelAt d r

/-- The level order of a tree: levels `0, 1, ..., height` one after the other. -/
def NodePtr.levelOrder (t : NodePtr T) : List T :=
  (List.range (t.height + 1)).flatMap fun d => NodePtr.levelAt d t

/-- A path that leads to an absent child slot of the tree: the null root itself,
or a null child link of a node of the tree. -/
def NodePtr.IsSlot (t : NodePtr T) (p : List Dir) : Prop :=
  t.getAt p = NodePtr.null ∧ (p = [] ∨ ∃ q d, p = q ++ [d] ∧ t.getAt q ≠ NodePtr.null)

instance NodePtr.decidableIsSlot (t : NodePtr T) [DecidableEq T] (p : List Dir) :
    Decidable (t.IsSlot p) :=
  decidable_of_iff
    (t.getAt p = NodePtr.null ∧ (p = [] ∨ (p ≠ [] ∧ t.getAt p.dropLast ≠ NodePtr.null))) <| by
    unfold NodePtr.IsSlot
    constructor
    · rintro ⟨h, h' | ⟨hne, hq⟩⟩
      · exact ⟨h, Or.inl h'⟩
      · exact ⟨h, Or.inr ⟨p.dropLast, p.getLast hne, (List.dropLast_append_getLast hne).symm, hq⟩⟩
    · rintro ⟨h, h' | ⟨q, d, rfl, hq⟩⟩
      · exact ⟨h, Or.inl h'⟩
      · exact ⟨h, Or.inr ⟨by simp, by simpa using hq⟩⟩

/-- The children of a node that are present, left before right. -/
def BinaryNode.children (n : BinaryNode T) : List (BinaryNode T) :=
  pushBackIf (pushBackIf [] n.left) n.right

/-- The values of the nodes at depth `d` below the entries of a deque, the
entries taken front to back. -/
def forestLevel (d : Nat) (q : List (BinaryNode T)) : List T :=
  q.flatMap fun n => NodePtr.levelAt d n.toPtr

/-- The values stored below the entries of a deque, entry by entry. -/
def forestValues (q : List (BinaryNode T)) : List T :=
  q.flatMap fun n => n.toPtr.toList

/-- The tree of the same shape with `f` applied to every stored value. -/
def NodePtr.map {U : Type} (f : T → U) : NodePtr T → NodePtr U
  | NodePtr.null => NodePtr.null
  | NodePtr.node l r v => NodePtr.node (l.map f) (r.map f) (f v)

/-- The node of the same shape with `f` applied to every stored value. -/
def BinaryNode.map {U : Type} (f : T → U) (n : BinaryNode T) : BinaryNode U :=
  ⟨n.left.map f, n.right.map f, f n.value⟩

/-- The loop state with `f` applied to every value, stored or recorded. -/
def BfsState.map {U : Type} (f : T → U) (s : BfsState T) : BfsState U :=
  ⟨s.d.map (BinaryNode.map f), s.values.map f⟩

/-- The tree of the same shape in which every node holds, next to its value, its
own position: the path that leads to it from the top. -/
def NodePtr.withPaths : NodePtr T → NodePtr (List Dir × T)
  | NodePtr.null => NodePtr.null
  | NodePtr.node l r v =>
    NodePtr.node (l.withPaths.map fun x => (Dir.left :: x.1, x.2))
      (r.withPaths.map fun x => (Dir.right :: x.1, x.2)) ([], v)

/-- The positions of the nodes of a tree in the order in which the loop of
`BreadthFirstSearch` takes them from the deque. -/
def dequeueOrder (t : NodePtr T) : List (List Dir) :=
  (bfsValues t.withPaths).map Prod.fst

/-- The tree without left children that holds the given values from the top
down: a linked list along the `right` links. -/
def rightSpine : List T → NodePtr T
  | [] => NodePtr.null
  | x :: xs => NodePtr.node NodePtr.null (rightSpine xs) x

section Specification

variable [LinearOrder T]

/-- The BST invariant: for every node, every value in its left subtree is
strictly less than the node's value and every value in its right subtree is
greater than or equal to it. -/
def NodePtr.IsBST : NodePtr T → Prop
  | NodePtr.null => True
  | NodePtr.node l r v => l.All (fun x => x < v) ∧ r.All (fun x => v ≤ x) ∧ l.IsBST ∧ r.IsBST

instance NodePtr.decidableIsBST : (t : NodePtr T) → Decidable t.IsBST
  | NodePtr.null => isTrue trivial
  | NodePtr.node l r v =>
    have := NodePtr.decidableIsBST l
    have := NodePtr.decidableIsBST r
    inferInstanceAs
      (Decidable (l.All (fun x => x < v) ∧ r.All (fun x => v ≤ x) ∧ l.IsBST ∧ r.IsBST))

/-- Reference insertion, by recursion on the tree: descend left when
`value < node.value`, otherwise right, and put a new leaf at the first absent
slot reached. -/
def insertRec (value : T) : NodePtr T → NodePtr T
  | NodePtr.null => NodePtr.node NodePtr.null NodePtr.null value
  | NodePtr.node l r v =>
    if value < v then NodePtr.node (insertRec value l) r v
    else NodePtr.node l (insertRec value r) v

/-- The path of the descent of `insert`: left when `value < node.value`,
otherwise right, down to the first absent slot. -/
def insertSlot (value : T) : NodePtr T → List Dir
  | NodePtr.null => []
  | NodePtr.node l r v =>
    if value < v then Dir.left :: insertSlot value l else Dir.right :: insertSlot value r

end Specification

/-! ## Values and in-order traversal -/

theorem all_iff_toList (P : T → Prop) (t : NodePtr T) :
    t.All P ↔ ∀ x ∈ t.toList, P x := by
  induction t with
  | null => simp [NodePtr.All, NodePtr.toList]
  | node l r v ihl ihr =>
    simp only [NodePtr.All, NodePtr.toList, List.mem_append, List.mem_cons, ihl, ihr]
    constructor
    · rintro ⟨hv, hl, hr⟩ x (hx | rfl | hx)
      · exact hl x hx
      · exact hv
      · exact hr x hx
    · intro h
      exact ⟨h v (Or.inr (Or.inl rfl)), fun x hx => h x (Or.inl hx),
        fun x hx => h x (Or.inr (Or.inr hx))⟩

theorem _inOrder_eq (t : NodePtr T) (values : List T) :
    _inOrder t values = values ++ t.toList := by
  induction t generalizing values with
  | null => simp [_inOrder, NodePtr.toList]
  | node l r v ihl ihr => simp [_inOrder, NodePtr.toList, ihl, ihr]

theorem inOrder_eq_toList (t : BinarySearchTree T) : t.inOrder = t.m_head.toList := by
  simp [BinarySearchTree.inOrder, _inOrder_eq]

theorem getAt_null (p : List Dir) : (NodePtr.null : NodePtr T).getAt p = NodePtr.null := by
  cases p <;> rfl

theorem valueAt_null (p : List Dir) : (NodePtr.null : NodePtr T).valueAt p = none := by
  simp [NodePtr.valueAt, getAt_null]

theorem all_getAt (P : T → Prop) (t : NodePtr T) (h : t.All P) (p : List Dir)
    (l r : NodePtr T) (v : T) (hp : t.getAt p = NodePtr.node l r v) : P v := by
  induction t generalizing p with
  | null => rw [getAt_null] at hp; cases hp
  | node tl tr tv ihl ihr =>
    obtain ⟨hv, hl, hr⟩ := h
    cases p with
    | nil =>
      simp only [NodePtr.getAt, NodePtr.node.injEq] at hp
      rw [← hp.2.2]; exact hv
    | cons d p =>
      cases d
      · exact ihl hl p hp
      · exact ihr hr p hp

/-! ## Breadth-first traversal -/

theorem pushBackIf_eq_append (d : List (BinaryNode T)) (p : NodePtr T) :
    pushBackIf d p = d ++ pushBackIf [] p := by
  cases p <;> simp [pushBackIf]

theorem bfsLoop_nil (values : List T) : bfsLoop ⟨[], values⟩ = values := by
  rw [bfsLoop]; simp [bfsStep]

theorem bfsLoop_cons (front : BinaryNode T) (d : List (BinaryNode T)) (values : List T) :
    bfsLoop ⟨front :: d, values⟩ = bfsLoop ⟨d ++ front.children, values ++ [front.value]⟩ := by
  rw [bfsLoop]
  simp only [bfsStep, BinaryNode.children]
  rw [pushBackIf_eq_append (pushBackIf d front.left), pushBackIf_eq_append d,
    pushBackIf_eq_append (pushBackIf [] front.left), List.append_assoc]

/-- Running the loop over a front segment `a` of the deque records the values of
`a` and leaves the children of `a` queued behind the rest. -/
theorem bfsLoop_append (a b : List (BinaryNode T)) (values : List T) :
    bfsLoop ⟨a ++ b, values⟩
      = bfsLoop ⟨b ++ a.flatMap BinaryNode.children, values ++ a.map BinaryNode.value⟩ := by
  induction a generalizing b values with
  | nil => simp
  | cons n a ih =>
    rw [List.cons_append, bfsLoop_cons, List.append_assoc, ih]
    simp [List.append_assoc]

theorem levelAt_null (d : Nat) : NodePtr.levelAt d (NodePtr.null : NodePtr T) = [] := by
  cases d <;> rfl

theorem forestLevel_zero (q : List (BinaryNode T)) :
    forestLevel 0 q = q.map BinaryNode.value := by
  induction q with
  | nil => rfl
  | cons n q ih =>
    simp only [forestLevel, List.flatMap_cons, List.map_cons] at ih ⊢
    rw [ih]
    simp [BinaryNode.toPtr, NodePtr.levelAt]

theorem forestLevel_children (d : Nat) (n : BinaryNode T) :
    forestLevel d n.children = NodePtr.levelAt d n.left ++ NodePtr.levelAt d n.right := by
  obtain ⟨l, r, v⟩ := n
  cases l <;> cases r <;>
    simp [forestLevel, BinaryNode.children, pushBackIf, BinaryNode.toPtr, levelAt_null]

theorem forestLevel_succ (d : Nat) (q : List (BinaryNode T)) :
    forestLevel (d + 1) q = forestLevel d (q.flatMap BinaryNode.children) := by
  induction q with
  | nil => rfl
  | cons n q ih =>
    have h : forestLevel d ((n :: q).flatMap BinaryNode.children)
        = forestLevel d n.children ++ forestLevel d (q.flatMap BinaryNode.children) := by
      simp [forestLevel, List.flatMap_append]
    rw [h, ← ih, forestLevel_children]
    simp [forestLevel, BinaryNode.toPtr, NodePtr.levelAt]

theorem mem_children {n m : BinaryNode T} (h : m ∈ n.children) :
    m.toPtr = n.left ∨ m.toPtr = n.right := by
  obtain ⟨l, r, v⟩ := n
  cases l <;> cases r <;> simp [BinaryNode.children, pushBackIf] at h
  · subst h; right; rfl
  · subst h; left; rfl
  · rcases h with rfl | rfl
    · left; rfl
    · right; rfl

theorem height_children {k : Nat} {q : List (BinaryNode T)}
    (h : ∀ n ∈ q, n.toPtr.height ≤ k + 1) :
    ∀ m ∈ q.flatMap BinaryNode.children, m.toPtr.height ≤ k := by
  intro m hm
  rw [List.mem_flatMap] at hm
  obtain ⟨n, hn, hmn⟩ := hm
  have hk := h n hn
  simp only [BinaryNode.toPtr, NodePtr.height] at hk
  rcases mem_children hmn with e | e <;> rw [e] <;> omega

/-- The loop appends to `values` the levels of the deque, one after the other. -/
theorem bfsLoop_levels (k : Nat) (q : List (BinaryNode T)) (values : List T)
    (h : ∀ n ∈ q, n.toPtr.height ≤ k) :
    bfsLoop ⟨q, values⟩ = values ++ (List.range k).flatMap fun d => forestLevel d q := by
  induction k generalizing q values with
  | zero =>
    cases q with
    | nil => simp [bfsLoop_nil]
    | cons n q =>
      have := h n (List.mem_cons_self _ _)
      simp [BinaryNode.toPtr, NodePtr.height] at this
  | succ k ih =>
    have h1 := bfsLoop_append q [] values
    rw [List.append_nil, List.nil_append] at h1
    rw [h1, ih _ _ (height_children h), List.range_succ_eq_map, List.flatMap_cons,
      List.flatMap_map, forestLevel_zero, List.append_assoc]
    simp only [forestLevel_succ]

theorem bfsValues_eq_levelOrder (t : NodePtr T) : bfsValues t = t.levelOrder := by
  cases t with
  | null => simp [bfsValues, NodePtr.levelOrder, levelAt_null]
  | node l r v =>
    rw [bfsValues, bfsLoop_levels ((NodePtr.node l r v).height + 1) _ _ (by
      intro n hn
      rw [List.mem_singleton] at hn
      subst hn
      simp [BinaryNode.toPtr])]
    simp [NodePtr.levelOrder, forestLevel, BinaryNode.toPtr]

theorem forestValues_children (n : BinaryNode T) :
    forestValues n.children = n.left.toList ++ n.right.toList := by
  obtain ⟨l, r, v⟩ := n
  cases l <;> cases r <;>
    simp [forestValues, BinaryNode.children, pushBackIf, BinaryNode.toPtr, NodePtr.toList]

theorem forestValues_cons (n : BinaryNode T) (q : List (BinaryNode T)) :
    forestValues (n :: q) = (n.left.toList ++ n.value :: n.right.toList) ++ forestValues q := by
  simp [forestValues, BinaryNode.toPtr, NodePtr.toList]

theorem forestValues_append (a b : List (BinaryNode T)) :
    forestValues (a ++ b) = forestValues a ++ forestValues b := by
  simp [forestValues]

theorem roots_children_perm (q : List (BinaryNode T)) :
    (q.map BinaryNode.value ++ forestValues (q.flatMap BinaryNode.children)).Perm
      (forestValues q) := by
  induction q with
  | nil => simp [forestValues]
  | cons n q ih =>
    rw [List.flatMap_cons, forestValues_append, forestValues_children, forestValues_cons,
      List.map_cons, List.cons_append, List.append_assoc, List.append_assoc]
    refine List.Perm.trans ?_ List.perm_middle.symm
    refine List.Perm.cons _ ?_
    refine (List.perm_append_comm_assoc _ _ _).trans (List.Perm.append_left _ ?_)
    exact (List.perm_append_comm_assoc _ _ _).trans (List.Perm.append_left _ ih)

/-- The values below a deque, level by level, are the values below it, entry by
entry, in another order. -/
theorem levels_perm (k : Nat) (q : List (BinaryNode T)) (h : ∀ n ∈ q, n.toPtr.height ≤ k) :
    ((List.range k).flatMap fun d => forestLevel d q).Perm (forestValues q) := by
  induction k generalizing q with
  | zero =>
    cases q with
    | nil => simp [forestValues]
    | cons n q =>
      have := h n (List.mem_cons_self _ _)
      simp [BinaryNode.toPtr, NodePtr.height] at this
  | succ k ih =>
    rw [List.range_succ_eq_map, List.flatMap_cons, List.flatMap_map, forestLevel_zero]
    simp only [forestLevel_succ]
    exact ((ih _ (height_children h)).append_left _).trans (roots_children_perm q)

theorem bfsValues_perm (t : NodePtr T) : (bfsValues t).Perm t.toList := by
  cases t with
  | null => simp [bfsValues, NodePtr.toList]
  | node l r v =>
    have hh : ∀ n ∈ [(⟨l, r, v⟩ : BinaryNode T)], n.toPtr.height ≤ (NodePtr.node l r v).height := by
      intro n hn
      rw [List.mem_singleton] at hn
      subst hn
      simp [BinaryNode.toPtr]
    rw [bfsValues, bfsLoop_levels _ _ _ hh, List.nil_append]
    refine (levels_perm _ _ hh).trans ?_
    simp [forestValues, BinaryNode.toPtr]

theorem length_toList (t : NodePtr T) : t.toList.length = t.size := by
  induction t with
  | null => rfl
  | node l r v ihl ihr => simp [NodePtr.toList, NodePtr.size, ihl, ihr]; omega

/-! ## The loop of `insert` and the recursive insertion -/

section InsertLemmas

variable [LinearOrder T]

/-- On a non-null pointer the loop of `insert` ends with `parent` at a path `q`
below the starting point, and attaching the new leaf there is the recursive
insertion. -/
theorem insertLoop_attach (value : T) (t : NodePtr T) (ht : t ≠ NodePtr.null)
    (here : List Dir) (parent : Option (List Dir)) :
    ∃ q, insertLoop value t here parent = some (here ++ q) ∧
      attach value (NodePtr.node NodePtr.null NodePtr.null value) q t = insertRec value t := by
  induction t generalizing here parent with
  | null => exact absurd rfl ht
  | node l r v ihl ihr =>
    by_cases hlt : value < v
    · by_cases hl : l = NodePtr.null
      · subst hl
        exact ⟨[], by simp [insertLoop, hlt], by simp [attach, insertRec, hlt]⟩
      · obtain ⟨q, hq, ha⟩ := ihl hl (here ++ [Dir.left]) (some here)
        refine ⟨Dir.left :: q, ?_, ?_⟩
        · rw [insertLoop, if_pos hlt, hq]; simp
        · rw [attach, ha, insertRec, if_pos hlt]
    · by_cases hr : r = NodePtr.null
      · subst hr
        exact ⟨[], by simp [insertLoop, hlt], by simp [attach, insertRec, hlt]⟩
      · obtain ⟨q, hq, ha⟩ := ihr hr (here ++ [Dir.right]) (some here)
        refine ⟨Dir.right :: q, ?_, ?_⟩
        · rw [insertLoop, if_neg hlt, hq]; simp
        · rw [attach, ha, insertRec, if_neg hlt]

/-- The coded `insert` builds the tree of the recursive insertion. -/
theorem insert_m_head (t : BinarySearchTree T) (value : T) :
    (t.insert value).m_head = insertRec value t.m_head := by
  obtain ⟨h⟩ := t
  cases h with
  | null => simp [BinarySearchTree.insert, insertLoop, initialParent, insertRec]
  | node l r v =>
    obtain ⟨q, hq, ha⟩ := insertLoop_attach value (NodePtr.node l r v) (by simp) [] (some [])
    simp only [BinarySearchTree.insert, initialParent, hq, List.nil_append, ha]

theorem insertAll_nil : (insertAll ([] : List T)) = BinarySearchTree.empty := rfl

theorem insertAll_append_singleton (xs : List T) (x : T) :
    insertAll (xs ++ [x]) = (insertAll xs).insert x := by
  simp [insertAll, List.foldl_append]

/-! ## Insertion: invariant and stored values -/

theorem all_insertRec (P : T → Prop) (value : T) (t : NodePtr T) :
    (insertRec value t).All P ↔ P value ∧ t.All P := by
  induction t with
  | null => simp [insertRec, NodePtr.All]
  | node l r v ihl ihr =>
    by_cases hlt : value < v
    · simp only [insertRec, hlt, if_true, NodePtr.All, ihl]; tauto
    · simp only [insertRec, hlt, if_false, NodePtr.All, ihr]; tauto

theorem isBST_insertRec (value : T) (t : NodePtr T) (h : t.IsBST) :
    (insertRec value t).IsBST := by
  induction t with
  | null => simp [insertRec, NodePtr.IsBST, NodePtr.All]
  | node l r v ihl ihr =>
    obtain ⟨hl, hr, bl, br⟩ := h
    by_cases hlt : value < v
    · rw [insertRec, if_pos hlt]
      exact ⟨(all_insertRec _ value l).2 ⟨hlt, hl⟩, hr, ihl bl, br⟩
    · rw [insertRec, if_neg hlt]
      exact ⟨hl, (all_insertRec _ value r).2 ⟨not_lt.mp hlt, hr⟩, bl, ihr br⟩

theorem isBST_insertAll (xs : List T) : (insertAll xs).m_head.IsBST := by
  induction xs using List.reverseRecOn with
  | nil => simp [insertAll, BinarySearchTree.empty, NodePtr.IsBST]
  | append_singleton xs x ih =>
    rw [insertAll_append_singleton, insert_m_head]
    exact isBST_insertRec x _ ih

theorem toList_insertRec_perm (value : T) (t : NodePtr T) :
    (insertRec value t).toList.Perm (value :: t.toList) := by
  induction t with
  | null => simp [insertRec, NodePtr.toList]
  | node l r v ihl ihr =>
    by_cases hlt : value < v
    · simp only [insertRec, hlt, if_true, NodePtr.toList]
      exact (ihl.append_right _).trans (by simp)
    · simp only [insertRec, hlt, if_false, NodePtr.toList]
      refine ((ihr.cons v).append_left _).trans ?_
      have h := @List.perm_middle _ value (l.toList ++ [v]) r.toList
      simpa using h

theorem toList_insertAll_perm (xs : List T) : (insertAll xs).m_head.toList.Perm xs := by
  induction xs using List.reverseRecOn with
  | nil => simp [insertAll, BinarySearchTree.empty, NodePtr.toList]
  | append_singleton xs x ih =>
    rw [insertAll_append_singleton, insert_m_head]
    refine (toList_insertRec_perm x _).trans ?_
    exact (List.Perm.cons x ih).trans (List.perm_append_singleton x xs).symm

theorem sorted_toList (t : NodePtr T) (h : t.IsBST) : t.toList.Sorted (· ≤ ·) := by
  induction t with
  | null => simp [NodePtr.toList]
  | node l r v ihl ihr =>
    obtain ⟨hl, hr, bl, br⟩ := h
    rw [all_iff_toList] at hl hr
    simp only [NodePtr.toList, List.Sorted, List.pairwise_append, List.pairwise_cons,
      List.mem_cons]
    refine ⟨ihl bl, ⟨hr, ihr br⟩, ?_⟩
    rintro a ha b (rfl | hb)
    · exact le_of_lt (hl a ha)
    · exact le_trans (le_of_lt (hl a ha)) (hr b hb)

/-! ## Lookup -/

theorem _find_of_mem (value : T) (t : NodePtr T) (h : t.IsBST) (hm : value ∈ t.toList) :
    ∃ l r, _find value t = NodePtr.node l r value := by
  induction t with
  | null => simp [NodePtr.toList] at hm
  | node l r v ihl ihr =>
    obtain ⟨hl, hr, bl, br⟩ := h
    rw [all_iff_toList] at hl hr
    by_cases heq : value = v
    · exact ⟨l, r, by rw [_find, if_pos heq, heq]⟩
    · simp only [NodePtr.toList, List.mem_append, List.mem_cons] at hm
      by_cases hlt : value < v
      · rw [_find, if_neg heq, if_pos hlt]
        rcases hm with hm | hm | hm
        · exact ihl bl hm
        · exact absurd hm heq
        · exact absurd hlt (not_lt.mpr (hr value hm))
      · rw [_find, if_neg heq, if_neg hlt]
        rcases hm with hm | hm | hm
        · exact absurd (hl value hm) hlt
        · exact absurd hm heq
        · exact ihr br hm

theorem _find_of_not_mem (value : T) (t : NodePtr T) (hm : value ∉ t.toList) :
    _find value t = NodePtr.null := by
  induction t with
  | null => rfl
  | node l r v ihl ihr =>
    simp only [NodePtr.toList, List.mem_append, List.mem_cons, not_or] at hm
    obtain ⟨hl, hv, hr⟩ := hm
    rw [_find, if_neg hv]
    split
    · exact ihl hl
    · exact ihr hr

/-! ## Positions -/

theorem size_insertRec (value : T) (t : NodePtr T) :
    (insertRec value t).size = t.size + 1 := by
  induction t with
  | null => rfl
  | node l r v ihl ihr =>
    by_cases hlt : value < v
    · rw [insertRec, if_pos hlt]; simp only [NodePtr.size, ihl]; omega
    · rw [insertRec, if_neg hlt]; simp only [NodePtr.size, ihr]; omega

theorem getAt_insertSlot (value : T) (t : NodePtr T) :
    t.getAt (insertSlot value t) = NodePtr.null := by
  induction t with
  | null => rfl
  | node l r v ihl ihr =>
    by_cases hlt : value < v
    · rw [insertSlot, if_pos hlt]; exact ihl
    · rw [insertSlot, if_neg hlt]; exact ihr

theorem isSlot_insertSlot (value : T) (t : NodePtr T) : t.IsSlot (insertSlot value t) := by
  refine ⟨getAt_insertSlot value t, ?_⟩
  induction t with
  | null => exact Or.inl rfl
  | node l r v ihl ihr =>
    right
    by_cases hlt : value < v
    · rw [insertSlot, if_pos hlt]
      rcases ihl with h | ⟨q, d, h, hq⟩
      · exact ⟨[], Dir.left, by rw [h]; rfl, by simp [NodePtr.getAt]⟩
      · exact ⟨Dir.left :: q, d, by rw [h]; rfl, by simpa [NodePtr.getAt] using hq⟩
    · rw [insertSlot, if_neg hlt]
      rcases ihr with h | ⟨q, d, h, hq⟩
      · exact ⟨[], Dir.right, by rw [h]; rfl, by simp [NodePtr.getAt]⟩
      · exact ⟨Dir.right :: q, d, by rw [h]; rfl, by simpa [NodePtr.getAt] using hq⟩

theorem getAt_insertRec_slot (value : T) (t : NodePtr T) :
    (insertRec value t).getAt (insertSlot value t)
      = NodePtr.node NodePtr.null NodePtr.null value := by
  induction t with
  | null => rfl
  | node l r v ihl ihr =>
    by_cases hlt : value < v
    · rw [insertSlot, if_pos hlt, insertRec, if_pos hlt]; exact ihl
    · rw [insertSlot, if_neg hlt, insertRec, if_neg hlt]; exact ihr

/-- After the insertion every position other than the slot of the new leaf
holds what it held before. -/
theorem valueAt_insertRec (value : T) (t : NodePtr T) (p : List Dir) :
    (insertRec value t).valueAt p
      = if p = insertSlot value t then some value else t.valueAt p := by
  induction t generalizing p with
  | null =>
    cases p with
    | nil => rfl
    | cons d p =>
      cases d <;> simp [insertRec, insertSlot, NodePtr.valueAt, NodePtr.getAt, getAt_null]
  | node l r v ihl ihr =>
    by_cases hlt : value < v
    · rw [insertSlot, if_pos hlt, insertRec, if_pos hlt]
      cases p with
      | nil => simp [NodePtr.valueAt, NodePtr.getAt]
      | cons d p =>
        cases d
        · have := ihl p
          simp only [NodePtr.valueAt, NodePtr.getAt, List.cons.injEq, true_and] at this ⊢
          exact this
        · simp [NodePtr.valueAt, NodePtr.getAt]
    · rw [insertSlot, if_neg hlt, insertRec, if_neg hlt]
      cases p with
      | nil => simp [NodePtr.valueAt, NodePtr.getAt]
      | cons d p =>
        cases d
        · simp [NodePtr.valueAt, NodePtr.getAt]
        · have := ihr p
          simp only [NodePtr.valueAt, NodePtr.getAt, List.cons.injEq, true_and] at this ⊢
          exact this

/-- In a tree with the BST invariant the descent of `insert` for a value stored
at position `p` passes through `p` and continues into the right subtree. -/
theorem insertSlot_of_getAt (t : NodePtr T) (h : t.IsBST) (p : List Dir)
    (l r : NodePtr T) (v : T) (hp : t.getAt p = NodePtr.node l r v) :
    insertSlot v t = p ++ Dir.right :: insertSlot v r := by
  induction t generalizing p with
  | null => rw [getAt_null] at hp; cases hp
  | node tl tr tv ihl ihr =>
    obtain ⟨hl, hr, bl, br⟩ := h
    cases p with
    | nil =>
      simp only [NodePtr.getAt, NodePtr.node.injEq] at hp
      obtain ⟨-, rfl, rfl⟩ := hp
      rw [insertSlot, if_neg (lt_irrefl _)]; rfl
    | cons d p =>
      cases d
      · have hlt : v < tv := all_getAt _ tl hl p l r v hp
        rw [insertSlot, if_pos hlt, ihl bl p hp]; rfl
      · have hle : tv ≤ v := all_getAt _ tr hr p l r v hp
        rw [insertSlot, if_neg (not_lt.mpr hle), ihr br p hp]; rfl

/-- In a tree with the BST invariant the insertion puts the new value after the
in-order values that are less than or equal to it and before the greater ones. -/
theorem toList_insertRec_split (value : T) (t : NodePtr T) (h : t.IsBST) :
    ∃ pre post, t.toList = pre ++ post ∧ (insertRec value t).toList = pre ++ value :: post ∧
      (∀ x ∈ pre, x ≤ value) ∧ ∀ x ∈ post, value < x := by
  induction t with
  | null => exact ⟨[], [], rfl, rfl, by simp, by simp⟩
  | node l r v ihl ihr =>
    obtain ⟨hl, hr, bl, br⟩ := h
    rw [all_iff_toList] at hl hr
    by_cases hlt : value < v
    · obtain ⟨pre, post, e1, e2, h1, h2⟩ := ihl bl
      refine ⟨pre, post ++ v :: r.toList, ?_, ?_, h1, ?_⟩
      · simp [NodePtr.toList, e1]
      · rw [insertRec, if_pos hlt]; simp [NodePtr.toList, e2]
      · intro x hx
        simp only [List.mem_append, List.mem_cons] at hx
        rcases hx with hx | rfl | hx
        · exact h2 x hx
        · exact hlt
        · exact lt_of_lt_of_le hlt (hr x hx)
    · obtain ⟨pre, post, e1, e2, h1, h2⟩ := ihr br
      refine ⟨l.toList ++ v :: pre, post, ?_, ?_, ?_, h2⟩
      · simp [NodePtr.toList, e1]
      · rw [insertRec, if_neg hlt]; simp [NodePtr.toList, e2]
      · intro x hx
        simp only [List.mem_append, List.mem_cons] at hx
        rcases hx with hx | rfl | hx
        · exact le_trans (le_of_lt (hl x hx)) (not_lt.mp hlt)
        · exact not_lt.mp hlt
        · exact h1 x hx

end InsertLemmas

/-! ## The BST invariant, node by node -/

section Invariant

variable [LinearOrder T]

/-- The recursive invariant says, of every node of the tree, that the values of
its left subtree are below its value and those of its right subtree are not. -/
theorem isBST_iff_forall_node (t : NodePtr T) :
    t.IsBST ↔ ∀ p l r v, t.getAt p = NodePtr.node l r v →
      (∀ x ∈ l.toList, x < v) ∧ ∀ x ∈ r.toList, v ≤ x := by
  induction t with
  | null =>
    simp only [NodePtr.IsBST, true_iff]
    intro p l r v hp
    rw [getAt_null] at hp
    cases hp
  | node tl tr tv ihl ihr =>
    simp only [NodePtr.IsBST, ihl, ihr, all_iff_toList]
    constructor
    · rintro ⟨hl, hr, bl, br⟩ p l r v hp
      cases p with
      | nil =>
        simp only [NodePtr.getAt, NodePtr.node.injEq] at hp
        obtain ⟨rfl, rfl, rfl⟩ := hp
        exact ⟨hl, hr⟩
      | cons d p =>
        cases d
        · exact bl p l r v hp
        · exact br p l r v hp
    · intro h
      refine ⟨(h [] tl tr tv rfl).1, (h [] tl tr tv rfl).2, ?_, ?_⟩
      · intro p l r v hp
        exact h (Dir.left :: p) l r v hp
      · intro p l r v hp
        exact h (Dir.right :: p) l r v hp

theorem isBST_rejects_misplaced_left :
    ¬ (NodePtr.node (NodePtr.node NodePtr.null NodePtr.null (5 : Int)) NodePtr.null 3).IsBST := by
  decide

theorem isBST_rejects_misplaced_grandchild :
    ¬ (NodePtr.node NodePtr.null
        (NodePtr.node (NodePtr.node NodePtr.null NodePtr.null (2 : Int)) NodePtr.null 9) 5).IsBST := by
  decide

end Invariant

/-! ## The position `find` returns -/

theorem valueAt_eq_some {t : NodePtr T} {p : List Dir} {v : T} (h : t.valueAt p = some v) :
    ∃ l r, t.getAt p = NodePtr.node l r v := by
  unfold NodePtr.valueAt at h
  split at h
  · cases h
  · next l r w hg =>
    simp only [Option.some.injEq] at h
    exact ⟨l, r, by rw [hg, h]⟩

theorem all_valueAt (P : T → Prop) (t : NodePtr T) (h : t.All P) (p : List Dir) (v : T)
    (hp : t.valueAt p = some v) : P v := by
  obtain ⟨l, r, hg⟩ := valueAt_eq_some hp
  exact all_getAt P t h p l r v hg

section FindLemmas

variable [LinearOrder T]

/-- The path `_findPath` returns leads to the node `_find` returns. -/
theorem _find_eq_getAt_findPath (value : T) (t : NodePtr T) :
    _find value t = match _findPath value t with
      | none => NodePtr.null
      | some p => t.getAt p := by
  induction t with
  | null => rfl
  | node l r v ihl ihr =>
    by_cases heq : value = v
    · simp [_find, _findPath, heq, NodePtr.getAt]
    · by_cases hlt : value < v
      · rw [_find, if_neg heq, if_pos hlt, _findPath, if_neg heq, if_pos hlt, ihl]
        cases _findPath value l <;> simp [NodePtr.getAt]
      · rw [_find, if_neg heq, if_neg hlt, _findPath, if_neg heq, if_neg hlt, ihr]
        cases _findPath value r <;> simp [NodePtr.getAt]

/-- The path `_findPath` returns leads to a node that holds the value. -/
theorem valueAt_findPath (value : T) (t : NodePtr T) (p : List Dir)
    (h : _findPath value t = some p) : t.valueAt p = some value := by
  induction t generalizing p with
  | null => simp [_findPath] at h
  | node l r v ihl ihr =>
    by_cases heq : value = v
    · rw [_findPath, if_pos heq] at h
      simp only [Option.some.injEq] at h
      subst h
      simp [NodePtr.valueAt, NodePtr.getAt, heq]
    · by_cases hlt : value < v
      · rw [_findPath, if_neg heq, if_pos hlt] at h
        cases hf : _findPath value l with
        | none => simp [hf] at h
        | some p' =>
          simp only [hf, Option.map_some', Option.some.injEq] at h
          subst h
          exact ihl p' hf
      · rw [_findPath, if_neg heq, if_neg hlt] at h
        cases hf : _findPath value r with
        | none => simp [hf] at h
        | some p' =>
          simp only [hf, Option.map_some', Option.some.injEq] at h
          subst h
          exact ihr p' hf

theorem findPath_eq_none_iff (value : T) (t : NodePtr T) :
    _findPath value t = none ↔ _find value t = NodePtr.null := by
  rw [_find_eq_getAt_findPath]
  cases h : _findPath value t with
  | none => simp
  | some p =>
    obtain ⟨l, r, hg⟩ := valueAt_eq_some (valueAt_findPath value t p h)
    simp [hg]

/-- In a tree with the BST invariant `_findPath` reaches a node that holds the
value whenever there is one, and every node that holds the value is that node or
lies in its right subtree. -/
theorem findPath_shallowest (value : T) (t : NodePtr T) (h : t.IsBST) (q : List Dir)
    (hq : t.valueAt q = some value) :
    ∃ p, _findPath value t = some p ∧ (q = p ∨ ∃ s, q = p ++ Dir.right :: s) := by
  induction t generalizing q with
  | null => rw [valueAt_null] at hq; cases hq
  | node l r v ihl ihr =>
    obtain ⟨hl, hr, bl, br⟩ := h
    by_cases heq : value = v
    · refine ⟨[], by rw [_findPath, if_pos heq], ?_⟩
      cases q with
      | nil => exact Or.inl rfl
      | cons d q =>
        cases d
        · have : value < v := all_valueAt _ l hl q value hq
          exact absurd heq (ne_of_lt this)
        · exact Or.inr ⟨q, rfl⟩
    · by_cases hlt : value < v
      · cases q with
        | nil =>
          simp only [NodePtr.valueAt, NodePtr.getAt, Option.some.injEq] at hq
          exact absurd hq.symm heq
        | cons d q =>
          cases d
          · obtain ⟨p, hp, hpq⟩ := ihl bl q hq
            refine ⟨Dir.left :: p, by rw [_findPath, if_neg heq, if_pos hlt, hp]; rfl, ?_⟩
            rcases hpq with rfl | ⟨s, rfl⟩
            · exact Or.inl rfl
            · exact Or.inr ⟨s, rfl⟩
          · have : v ≤ value := all_valueAt _ r hr q value hq
            exact absurd hlt (not_lt.mpr this)
      · cases q with
        | nil =>
          simp only [NodePtr.valueAt, NodePtr.getAt, Option.some.injEq] at hq
          exact absurd hq.symm heq
        | cons d q =>
          cases d
          · have : value < v := all_valueAt _ l hl q value hq
            exact absurd this hlt
          · obtain ⟨p, hp, hpq⟩ := ihr br q hq
            refine ⟨Dir.right :: p, by rw [_findPath, if_neg heq, if_neg hlt, hp]; rfl, ?_⟩
            rcases hpq with rfl | ⟨s, rfl⟩
            · exact Or.inl rfl
            · exact Or.inr ⟨s, rfl⟩

/-- Inserting a value does not move what a lookup of another value returns. -/
theorem findPath_insertRec_of_ne (v w : T) (hne : w ≠ v) (t : NodePtr T) :
    _findPath w (insertRec v t) = _findPath w t := by
  induction t with
  | null => simp [insertRec, _findPath, hne]
  | node l r u ihl ihr =>
    by_cases hlt : v < u
    · rw [insertRec, if_pos hlt, _findPath, _findPath, ihl]
    · rw [insertRec, if_neg hlt, _findPath, _findPath, ihr]

/-- Inserting a value does not move what a successful lookup returns. -/
theorem findPath_insertRec_of_some (v w : T) (t : NodePtr T) (p : List Dir)
    (h : _findPath w t = some p) : _findPath w (insertRec v t) = some p := by
  induction t generalizing p with
  | null => simp [_findPath] at h
  | node l r u ihl ihr =>
    by_cases heq : w = u
    · rw [_findPath, if_pos heq] at h
      by_cases hlt : v < u
      · rw [insertRec, if_pos hlt, _findPath, if_pos heq, h]
      · rw [insertRec, if_neg hlt, _findPath, if_pos heq, h]
    · by_cases hwu : w < u
      · rw [_findPath, if_neg heq, if_pos hwu] at h
        by_cases hlt : v < u
        · rw [insertRec, if_pos hlt, _findPath, if_neg heq, if_pos hwu]
          cases hf : _findPath w l with
          | none => simp [hf] at h
          | some p' => rw [ihl p' hf, ← h, hf]
        · rw [insertRec, if_neg hlt, _findPath, if_neg heq, if_pos hwu, h]
      · rw [_findPath, if_neg heq, if_neg hwu] at h
        by_cases hlt : v < u
        · rw [insertRec, if_pos hlt, _findPath, if_neg heq, if_neg hwu, h]
        · rw [insertRec, if_neg hlt, _findPath, if_neg heq, if_neg hwu]
          cases hf : _findPath w r with
          | none => simp [hf] at h
          | some p' => rw [ihr p' hf, ← h, hf]

/-- The first insertion of a value makes the lookup return the new leaf. -/
theorem findPath_insertRec_self (v : T) (t : NodePtr T) (h : v ∉ t.toList) :
    _findPath v (insertRec v t) = some (insertSlot v t) := by
  induction t with
  | null => simp [insertRec, _findPath, insertSlot]
  | node l r u ihl ihr =>
    simp only [NodePtr.toList, List.mem_append, List.mem_cons, not_or] at h
    obtain ⟨hl, hu, hr⟩ := h
    by_cases hlt : v < u
    · rw [insertRec, if_pos hlt, _findPath, if_neg hu, if_pos hlt, ihl hl, insertSlot,
        if_pos hlt]
      rfl
    · rw [insertRec, if_neg hlt, _findPath, if_neg hu, if_neg hlt, ihr hr, insertSlot,
        if_neg hlt]
      rfl

theorem insertAll_append (xs ys : List T) :
    insertAll (xs ++ ys) = ys.foldl BinarySearchTree.insert (insertAll xs) := by
  simp [insertAll, List.foldl_append]

theorem findPath_foldl_insert (w : T) (ys : List T) (t : BinarySearchTree T) (p : List Dir)
    (h : _findPath w t.m_head = some p) :
    _findPath w (ys.foldl BinarySearchTree.insert t).m_head = some p := by
  induction ys generalizing t with
  | nil => exact h
  | cons y ys ih =>
    rw [List.foldl_cons]
    apply ih
    rw [insert_m_head]
    exact findPath_insertRec_of_some y w _ p h

/-- After any further insertions the lookup of a value returns the node that the
first insertion of that value created. -/
theorem findPath_insertAll_first (pre post : List T) (v : T) (h : v ∉ pre) :
    _findPath v (insertAll (pre ++ v :: post)).m_head
      = some (insertSlot v (insertAll pre).m_head) := by
  rw [insertAll_append, List.foldl_cons]
  apply findPath_foldl_insert
  rw [insert_m_head]
  apply findPath_insertRec_self
  intro hm
  exact h ((toList_insertAll_perm pre).mem_iff.1 hm)

/-- On a non-null pointer the loop of `insert` ends with `parent` at a node whose
child link on the side chosen by `value < parent->value` is null, and that link
is the slot where the descent stopped. -/
theorem insertLoop_parent (value : T) (t : NodePtr T) (ht : t ≠ NodePtr.null)
    (here : List Dir) (parent : Option (List Dir)) :
    ∃ q l r w, insertLoop value t here parent = some (here ++ q) ∧
      t.getAt q = NodePtr.node l r w ∧
      ((value < w ∧ l = NodePtr.null ∧ insertSlot value t = q ++ [Dir.left]) ∨
        (¬ value < w ∧ r = NodePtr.null ∧ insertSlot value t = q ++ [Dir.right])) := by
  induction t generalizing here parent with
  | null => exact absurd rfl ht
  | node l r v ihl ihr =>
    by_cases hlt : value < v
    · by_cases hl : l = NodePtr.null
      · subst hl
        exact ⟨[], NodePtr.null, r, v, by simp [insertLoop, hlt], rfl,
          Or.inl ⟨hlt, rfl, by simp [insertSlot, hlt]⟩⟩
      · obtain ⟨q, cl, cr, w, hq, hg, hside⟩ := ihl hl (here ++ [Dir.left]) (some here)
        refine ⟨Dir.left :: q, cl, cr, w, ?_, hg, ?_⟩
        · rw [insertLoop, if_pos hlt, hq]; simp
        · rw [insertSlot, if_pos hlt]
          rcases hside with ⟨h1, h2, h3⟩ | ⟨h1, h2, h3⟩
          · exact Or.inl ⟨h1, h2, by rw [h3]; rfl⟩
          · exact Or.inr ⟨h1, h2, by rw [h3]; rfl⟩
    · by_cases hr : r = NodePtr.null
      · subst hr
        exact ⟨[], l, NodePtr.null, v, by simp [insertLoop, hlt], rfl,
          Or.inr ⟨hlt, rfl, by simp [insertSlot, hlt]⟩⟩
      · obtain ⟨q, cl, cr, w, hq, hg, hside⟩ := ihr hr (here ++ [Dir.right]) (some here)
        refine ⟨Dir.right :: q, cl, cr, w, ?_, hg, ?_⟩
        · rw [insertLoop, if_neg hlt, hq]; simp
        · rw [insertSlot, if_neg hlt]
          rcases hside with ⟨h1, h2, h3⟩ | ⟨h1, h2, h3⟩
          · exact Or.inl ⟨h1, h2, by rw [h3]; rfl⟩
          · exact Or.inr ⟨h1, h2, by rw [h3]; rfl⟩

end FindLemmas

/-! ## The loop of the breadth-first traversal, step by step -/

theorem exists_height_bound (q : List (BinaryNode T)) :
    ∃ k, ∀ n ∈ q, n.toPtr.height ≤ k := by
  induction q with
  | nil => exact ⟨0, by simp⟩
  | cons m q ih =>
    obtain ⟨k, hk⟩ := ih
    refine ⟨max m.toPtr.height k, ?_⟩
    intro n hn
    rcases List.mem_cons.1 hn with rfl | hn
    · exact le_max_left _ _
    · exact le_trans (hk n hn) (le_max_right _ _)

/-- The loop only appends to `values`. -/
theorem bfsLoop_extends (q : List (BinaryNode T)) (values : List T) :
    ∃ rest, bfsLoop ⟨q, values⟩ = values ++ rest := by
  obtain ⟨k, hk⟩ := exists_height_bound q
  exact ⟨_, bfsLoop_levels k q values hk⟩

theorem queueWeight_pushBackIf (q : List (BinaryNode T)) (p : NodePtr T) :
    queueWeight (pushBackIf q p) = queueWeight q + p.size := by
  cases p <;> simp [pushBackIf, queueWeight, NodePtr.size, BinaryNode.toPtr]

theorem queueWeight_append (a b : List (BinaryNode T)) :
    queueWeight (a ++ b) = queueWeight a + queueWeight b := by
  simp [queueWeight]

theorem queueWeight_cons (n : BinaryNode T) (q : List (BinaryNode T)) :
    queueWeight (n :: q) = queueWeight q + queueWeight n.children + 1 := by
  have hc : queueWeight n.children = n.left.size + n.right.size := by
    rw [BinaryNode.children, queueWeight_pushBackIf, queueWeight_pushBackIf]
    simp [queueWeight]
  rw [hc]
  simp only [queueWeight, List.map_cons, List.sum_cons, BinaryNode.toPtr, NodePtr.size]
  omega

theorem queueWeight_eq_zero {q : List (BinaryNode T)} (h : queueWeight q = 0) : q = [] := by
  cases q with
  | nil => rfl
  | cons n q => rw [queueWeight_cons] at h; omega

theorem bfsStep_cons (front : BinaryNode T) (d : List (BinaryNode T)) (values : List T) :
    bfsStep ⟨front :: d, values⟩ = some ⟨d ++ front.children, values ++ [front.value]⟩ := by
  simp only [bfsStep, BinaryNode.children]
  rw [pushBackIf_eq_append (pushBackIf d front.left), pushBackIf_eq_append d,
    pushBackIf_eq_append (pushBackIf [] front.left), List.append_assoc]

theorem bfsStep_nil (values : List T) : bfsStep (⟨[], values⟩ : BfsState T) = none := rfl

theorem bfsLoop_of_step {s s' : BfsState T} (h : bfsStep s = some s') :
    bfsLoop s = bfsLoop s' := by
  obtain ⟨d, values⟩ := s
  cases d with
  | nil => rw [bfsStep_nil] at h; cases h
  | cons front d =>
    rw [bfsStep_cons, Option.some.injEq] at h
    rw [bfsLoop_cons, h]

theorem bfsLoop_of_run (k : Nat) (s s' : BfsState T) (h : bfsRun k s = some s') :
    bfsLoop s = bfsLoop s' := by
  induction k generalizing s with
  | zero =>
    simp only [bfsRun, Option.some.injEq] at h
    rw [h]
  | succ k ih =>
    rw [bfsRun] at h
    cases hs : bfsStep s with
    | none => simp [hs] at h
    | some s1 =>
      simp only [hs] at h
      rw [bfsLoop_of_step hs, ih s1 h]

/-- A loop state whose deque holds `n` nodes in all (the entries and everything
below them) admits exactly `n` more iterations: the first `n` each find the
deque non-empty, and after them the deque is empty and `values` is final. -/
theorem bfsRun_weight (n : Nat) (s : BfsState T) (h : queueWeight s.d = n) :
    (∃ s', bfsRun n s = some s' ∧ s'.d = [] ∧ s'.values = bfsLoop s) ∧
      ∀ k, k < n → ∃ s', bfsRun k s = some s' ∧ s'.d ≠ [] := by
  induction n generalizing s with
  | zero =>
    obtain ⟨d, values⟩ := s
    have hd : d = [] := queueWeight_eq_zero h
    subst hd
    exact ⟨⟨_, rfl, rfl, (bfsLoop_nil values).symm⟩, fun k hk => absurd hk (Nat.not_lt_zero k)⟩
  | succ n ih =>
    obtain ⟨d, values⟩ := s
    cases d with
    | nil => simp [queueWeight] at h
    | cons front d =>
      have hstep := bfsStep_cons front d values
      have hw : queueWeight (d ++ front.children) = n := by
        simp only [queueWeight_cons] at h
        rw [queueWeight_append]
        omega
      obtain ⟨⟨s', hrun, hd, hv⟩, hk⟩ := ih ⟨d ++ front.children, values ++ [front.value]⟩ hw
      refine ⟨⟨s', ?_, hd, ?_⟩, ?_⟩
      · rw [bfsRun, hstep]; exact hrun
      · rw [hv, bfsLoop_cons]
      · intro k hkn
        cases k with
        | zero => exact ⟨_, rfl, by simp⟩
        | succ k =>
          obtain ⟨s1, h1, h2⟩ := hk k (by omega)
          exact ⟨s1, by rw [bfsRun, hstep]; exact h1, h2⟩

theorem queueWeight_bfsInit (t : NodePtr T) : queueWeight (bfsInit t).d = t.size := by
  rw [bfsInit, queueWeight_pushBackIf]
  simp [queueWeight]

/-- At every state of the loop, what has been recorded followed by what is on
the deque is an initial part of the final `values`. -/
theorem bfsLoop_prefix_of_run (k : Nat) (s s' : BfsState T) (h : bfsRun k s = some s') :
    ∃ rest, bfsLoop s = s'.values ++ s'.d.map BinaryNode.value ++ rest := by
  rw [bfsLoop_of_run k s s' h]
  obtain ⟨d, values⟩ := s'
  have h1 := bfsLoop_append d [] values
  rw [List.append_nil, List.nil_append] at h1
  obtain ⟨rest, h2⟩ := bfsLoop_extends (d.flatMap BinaryNode.children)
    (values ++ d.map BinaryNode.value)
  exact ⟨rest, by rw [h1, h2]⟩

/-! ## Which node each iteration takes from the deque -/

section Positions

variable {U V : Type}

theorem map_map (f : T → U) (g : U → V) (t : NodePtr T) :
    (t.map f).map g = t.map (g ∘ f) := by
  induction t with
  | null => rfl
  | node l r v ihl ihr => simp [NodePtr.map, ihl, ihr]

theorem map_id_of_forall (f : T → T) (hf : ∀ x, f x = x) (t : NodePtr T) : t.map f = t := by
  induction t with
  | null => rfl
  | node l r v ihl ihr => simp [NodePtr.map, ihl, ihr, hf]

theorem size_map (f : T → U) (t : NodePtr T) : (t.map f).size = t.size := by
  induction t with
  | null => rfl
  | node l r v ihl ihr => simp [NodePtr.map, NodePtr.size, ihl, ihr]

theorem height_map (f : T → U) (t : NodePtr T) : (t.map f).height = t.height := by
  induction t with
  | null => rfl
  | node l r v ihl ihr => simp [NodePtr.map, NodePtr.height, ihl, ihr]

theorem toList_map (f : T → U) (t : NodePtr T) : (t.map f).toList = t.toList.map f := by
  induction t with
  | null => rfl
  | node l r v ihl ihr => simp [NodePtr.map, NodePtr.toList, ihl, ihr]

theorem levelAt_map (f : T → U) (d : Nat) (t : NodePtr T) :
    NodePtr.levelAt d (t.map f) = (NodePtr.levelAt d t).map f := by
  induction t generalizing d with
  | null => simp [NodePtr.map, levelAt_null]
  | node l r v ihl ihr =>
    cases d with
    | zero => rfl
    | succ d => simp [NodePtr.map, NodePtr.levelAt, ihl, ihr]

/-- The loop is uniform in the stored values. -/
theorem bfsValues_map (f : T → U) (t : NodePtr T) :
    bfsValues (t.map f) = (bfsValues t).map f := by
  rw [bfsValues_eq_levelOrder, bfsValues_eq_levelOrder, NodePtr.levelOrder, NodePtr.levelOrder,
    height_map, List.map_flatMap]
  simp only [levelAt_map]

theorem pushBackIf_map (f : T → U) (d : List (BinaryNode T)) (p : NodePtr T) :
    pushBackIf (d.map (BinaryNode.map f)) (p.map f) = (pushBackIf d p).map (BinaryNode.map f) := by
  cases p <;> simp [pushBackIf, NodePtr.map, BinaryNode.map]

theorem bfsStep_map (f : T → U) (s : BfsState T) :
    bfsStep (s.map f) = (bfsStep s).map (BfsState.map f) := by
  obtain ⟨d, values⟩ := s
  cases d with
  | nil => rfl
  | cons front d =>
    simp only [BfsState.map, List.map_cons, bfsStep, Option.map_some', Option.some.injEq,
      BfsState.mk.injEq]
    refine ⟨?_, by simp [BinaryNode.map]⟩
    have h1 : (BinaryNode.map f front).left = front.left.map f := rfl
    have h2 : (BinaryNode.map f front).right = front.right.map f := rfl
    rw [h1, h2, pushBackIf_map, pushBackIf_map]

theorem bfsRun_map (f : T → U) (k : Nat) (s : BfsState T) :
    bfsRun k (s.map f) = (bfsRun k s).map (BfsState.map f) := by
  induction k generalizing s with
  | zero => rfl
  | succ k ih =>
    rw [bfsRun, bfsRun, bfsStep_map]
    cases bfsStep s with
    | none => rfl
    | some s1 => exact ih s1

theorem bfsInit_map (f : T → U) (t : NodePtr T) : bfsInit (t.map f) = (bfsInit t).map f := by
  cases t <;> simp [bfsInit, pushBackIf, NodePtr.map, BfsState.map, BinaryNode.map]

end Positions

/-- Forgetting the positions gives the tree back. -/
theorem withPaths_map_snd (t : NodePtr T) : t.withPaths.map Prod.snd = t := by
  induction t with
  | null => rfl
  | node l r v ihl ihr =>
    simp only [NodePtr.withPaths, NodePtr.map, map_map]
    have hl : (Prod.snd ∘ fun x : List Dir × T => (Dir.left :: x.1, x.2)) = Prod.snd := rfl
    have hr : (Prod.snd ∘ fun x : List Dir × T => (Dir.right :: x.1, x.2)) = Prod.snd := rfl
    rw [hl, hr, ihl, ihr]

theorem toList_withPaths_node (l r : NodePtr T) (v : T) :
    (NodePtr.node l r v).withPaths.toList
      = l.withPaths.toList.map (fun x => (Dir.left :: x.1, x.2))
        ++ ([], v) :: r.withPaths.toList.map (fun x => (Dir.right :: x.1, x.2)) := by
  simp [NodePtr.withPaths, NodePtr.toList, toList_map]

/-- Every node of the tree with positions holds its own position and value. -/
theorem valueAt_of_mem_withPaths (t : NodePtr T) (p : List Dir) (x : T)
    (h : (p, x) ∈ t.withPaths.toList) : t.valueAt p = some x := by
  induction t generalizing p with
  | null => simp [NodePtr.withPaths, NodePtr.toList] at h
  | node l r v ihl ihr =>
    rw [toList_withPaths_node] at h
    simp only [List.mem_append, List.mem_map, List.mem_cons, Prod.mk.injEq, Prod.exists] at h
    rcases h with ⟨a, b, hab, rfl, rfl⟩ | ⟨rfl, rfl⟩ | ⟨a, b, hab, rfl, rfl⟩
    · exact ihl a hab
    · rfl
    · exact ihr a hab

/-- The positions held in the tree with positions are those of the nodes. -/
theorem mem_positions_iff (t : NodePtr T) (p : List Dir) :
    p ∈ t.withPaths.toList.map Prod.fst ↔ t.getAt p ≠ NodePtr.null := by
  induction t generalizing p with
  | null => simp [NodePtr.withPaths, NodePtr.toList, getAt_null]
  | node l r v ihl ihr =>
    rw [toList_withPaths_node]
    simp only [List.map_append, List.map_map, List.map_cons, List.mem_append, List.mem_cons,
      List.mem_map, Function.comp]
    cases p with
    | nil => simp [NodePtr.getAt]
    | cons d p =>
      cases d
      · have := ihl p
        simp only [List.mem_map] at this
        simp only [List.cons.injEq, true_and, reduceCtorEq, false_and, and_false, exists_false,
          or_false, NodePtr.getAt]
        exact this
      · have := ihr p
        simp only [List.mem_map] at this
        simp only [List.cons.injEq, true_and, reduceCtorEq, false_and, and_false, exists_false,
          false_or, NodePtr.getAt]
        exact this

theorem nodup_positions (t : NodePtr T) : (t.withPaths.toList.map Prod.fst).Nodup := by
  induction t with
  | null => simp [NodePtr.withPaths, NodePtr.toList]
  | node l r v ihl ihr =>
    rw [toList_withPaths_node]
    simp only [List.map_append, List.map_map, List.map_cons]
    have hL : (List.map (Prod.fst ∘ fun x : List Dir × T => (Dir.left :: x.1, x.2))
        l.withPaths.toList) = (l.withPaths.toList.map Prod.fst).map (fun q => Dir.left :: q) := by
      simp [List.map_map, Function.comp]
    have hR : (List.map (Prod.fst ∘ fun x : List Dir × T => (Dir.right :: x.1, x.2))
        r.withPaths.toList) = (r.withPaths.toList.map Prod.fst).map (fun q => Dir.right :: q) := by
      simp [List.map_map, Function.comp]
    rw [hL, hR, List.nodup_append]
    refine ⟨ihl.map (fun a b h => by simpa using h), ?_, ?_⟩
    · rw [List.nodup_cons]
      exact ⟨by simp, ihr.map (fun a b h => by simpa using h)⟩
    · intro a ha hb
      rw [List.mem_map] at ha
      obtain ⟨q, -, rfl⟩ := ha
      simp at hb

theorem dequeueOrder_perm (t : NodePtr T) :
    (dequeueOrder t).Perm (t.withPaths.toList.map Prod.fst) :=
  (bfsValues_perm t.withPaths).map Prod.fst

/-! ## The root -/

theorem head_bfsValues (l r : NodePtr T) (v : T) :
    (bfsValues (NodePtr.node l r v)).head? = some v := by
  rw [bfsValues, bfsLoop_cons]
  obtain ⟨rest, h⟩ := bfsLoop_extends ([] ++ (⟨l, r, v⟩ : BinaryNode T).children) ([] ++ [v])
  rw [h]
  rfl

section Root

variable [LinearOrder T]

theorem root_insertRec (x : T) (l r : NodePtr T) (v : T) :
    ∃ l' r', insertRec x (NodePtr.node l r v) = NodePtr.node l' r' v := by
  by_cases hlt : x < v
  · exact ⟨_, _, by rw [insertRec, if_pos hlt]⟩
  · exact ⟨_, _, by rw [insertRec, if_neg hlt]⟩

theorem root_foldl_insert (ys : List T) (t : BinarySearchTree T) (l r : NodePtr T) (v : T)
    (h : t.m_head = NodePtr.node l r v) :
    ∃ l' r', (ys.foldl BinarySearchTree.insert t).m_head = NodePtr.node l' r' v := by
  induction ys generalizing t l r with
  | nil => exact ⟨l, r, h⟩
  | cons y ys ih =>
    obtain ⟨l', r', h'⟩ := root_insertRec y l r v
    rw [List.foldl_cons]
    exact ih (t.insert y) l' r' (by rw [insert_m_head, h, h'])

theorem root_insertAll (x : T) (xs : List T) :
    ∃ l r, (insertAll (x :: xs)).m_head = NodePtr.node l r x := by
  have : insertAll (x :: xs)
      = xs.foldl BinarySearchTree.insert (BinarySearchTree.empty.insert x) := rfl
  rw [this]
  exact root_foldl_insert xs _ NodePtr.null NodePtr.null x rfl

end Root

/-! ## Insertion in non-decreasing order -/

theorem bfsValues_eq_bfsLoop (t : NodePtr T) : bfsValues t = bfsLoop (bfsInit t) := by
  cases t with
  | null => simp [bfsValues, bfsInit, pushBackIf, bfsLoop_nil]
  | node l r v => simp [bfsValues, bfsInit, pushBackIf]

theorem height_rightSpine (xs : List T) : (rightSpine xs).height = xs.length := by
  induction xs with
  | nil => rfl
  | cons x xs ih => simp [rightSpine, NodePtr.height, ih]

theorem toList_rightSpine (xs : List T) : (rightSpine xs).toList = xs := by
  induction xs with
  | nil => rfl
  | cons x xs ih => simp [rightSpine, NodePtr.toList, ih]

theorem getAt_rightSpine (xs : List T) (p : List Dir) (l r : NodePtr T) (v : T)
    (h : (rightSpine xs).getAt p = NodePtr.node l r v) : l = NodePtr.null := by
  induction xs generalizing p with
  | nil => rw [rightSpine, getAt_null] at h; cases h
  | cons x xs ih =>
    cases p with
    | nil =>
      simp only [rightSpine, NodePtr.getAt, NodePtr.node.injEq] at h
      exact h.1.symm
    | cons d p =>
      cases d
      · rw [rightSpine, NodePtr.getAt, getAt_null] at h; cases h
      · exact ih p h

theorem bfsLoop_rightSpine (xs : List T) (values : List T) :
    bfsLoop ⟨pushBackIf [] (rightSpine xs), values⟩ = values ++ xs := by
  induction xs generalizing values with
  | nil => simp [rightSpine, pushBackIf, bfsLoop_nil]
  | cons x xs ih =>
    have hc : (⟨NodePtr.null, rightSpine xs, x⟩ : BinaryNode T).children
        = pushBackIf [] (rightSpine xs) := rfl
    rw [rightSpine, pushBackIf, List.nil_append, bfsLoop_cons, List.nil_append, hc, ih]
    simp

theorem bfsValues_rightSpine (xs : List T) : bfsValues (rightSpine xs) = xs := by
  rw [bfsValues_eq_bfsLoop, bfsInit, bfsLoop_rightSpine, List.nil_append]

section SortedInput

variable [LinearOrder T]

theorem insertRec_rightSpine (x : T) (xs : List T) (h : ∀ y ∈ xs, y ≤ x) :
    insertRec x (rightSpine xs) = rightSpine (xs ++ [x]) := by
  induction xs with
  | nil => rfl
  | cons y ys ih =>
    have hy : ¬ x < y := not_lt.mpr (h y (List.mem_cons_self _ _))
    rw [rightSpine, insertRec, if_neg hy, ih (fun z hz => h z (List.mem_cons_of_mem _ hz))]
    rfl

/-- Inserting a non-decreasing list builds the linked list along `right`. -/
theorem insertAll_sorted (xs : List T) (h : xs.Sorted (· ≤ ·)) :
    (insertAll xs).m_head = rightSpine xs := by
  induction xs using List.reverseRecOn with
  | nil => rfl
  | append_singleton xs x ih =>
    have hs : xs.Sorted (· ≤ ·) ∧ ∀ y ∈ xs, y ≤ x := by
      have := List.pairwise_append.1 h
      exact ⟨this.1, fun y hy => this.2.2 y hy x (List.mem_singleton_self x)⟩
    rw [insertAll_append_singleton, insert_m_head, ih hs.1, insertRec_rightSpine x xs hs.2]

end SortedInput

/-! ## The claims -/

section Claims

variable [LinearOrder T]

/-- C1: the empty tree satisfies the BST invariant, `insert` preserves the
invariant on every tree that satisfies it, and therefore the tree built by any
finite sequence of `insert` calls on an empty tree satisfies it: in every node
the values of the left subtree are strictly less than the node's value and the
values of the right subtree are greater than or equal to it. -/
theorem C1_insert_keeps_bst_invariant :
    (BinarySearchTree.empty : BinarySearchTree T).m_head.IsBST ∧
    (∀ (t : BinarySearchTree T) (v : T), t.m_head.IsBST → (t.insert v).m_head.IsBST) ∧
    (∀ xs : List T, (insertAll xs).m_head.IsBST) ∧
    ∀ (xs : List T) (p : List Dir) (l r : NodePtr T) (v : T),
      (insertAll xs).m_head.getAt p = NodePtr.node l r v →
        (∀ x ∈ l.toList, x < v) ∧ ∀ x ∈ r.toList, v ≤ x := by
  refine ⟨trivial, ?_, isBST_insertAll, ?_⟩
  · intro t v h
    rw [insert_m_head]
    exact isBST_insertRec v _ h
  · intro xs
    exact (isBST_iff_forall_node _).1 (isBST_insertAll xs)

/-- C2: for every list `xs`, `inOrder()` of the tree obtained by inserting the
elements of `xs` in order into an empty tree is non-decreasing and a permutation
of `xs`, that is `xs` sorted; inserting 5,10,3,4,7,12,15 gives
[3,4,5,7,10,12,15] and inserting "abc","zyx","defg","" gives
["","abc","defg","zyx"]. -/
theorem C2_inOrder_is_sorted_input :
    (∀ (α : Type) [LinearOrder α] (xs : List α),
      (insertAll xs).inOrder.Sorted (· ≤ ·) ∧ (insertAll xs).inOrder.Perm xs ∧
        (insertAll xs).inOrder = xs.insertionSort (· ≤ ·)) ∧
    (insertAll [5, 10, 3, 4, 7, 12, 15] : BinarySearchTree Int).inOrder
      = [3, 4, 5, 7, 10, 12, 15] ∧
    (insertAll ["abc", "zyx", "defg", ""] : BinarySearchTree String).inOrder
      = ["", "abc", "defg", "zyx"] := by
  refine ⟨?_, by decide, ?_⟩
  · intro α _ xs
    have hs : (insertAll xs).inOrder.Sorted (· ≤ ·) := by
      rw [inOrder_eq_toList]; exact sorted_toList _ (isBST_insertAll xs)
    have hp : (insertAll xs).inOrder.Perm xs := by
      rw [inOrder_eq_toList]; exact toList_insertAll_perm xs
    refine ⟨hs, hp, ?_⟩
    exact List.eq_of_perm_of_sorted (hp.trans (List.perm_insertionSort _ xs).symm) hs
      (List.sorted_insertionSort _ xs)
  · simp +decide [insertAll, BinarySearchTree.insert, BinarySearchTree.empty, insertLoop,
      initialParent, attach, BinarySearchTree.inOrder, _inOrder]

/-- C3: after inserting the elements of `xs` in order into an empty tree,
`find(v)` for a value `v` that occurs in `xs` returns a non-null node whose
value is `v`. -/
theorem C3_find_returns_inserted_value (xs : List T) (v : T) (h : v ∈ xs) :
    ∃ l r, (insertAll xs).find v = NodePtr.node l r v :=
  _find_of_mem v _ (isBST_insertAll xs) ((toList_insertAll_perm xs).mem_iff.2 h)

theorem C3_find_returns_inserted_value_witness :
    ((5 : Int) ∈ [5, 10, 3, 4, 7, 12, 15] ∧
      ∃ l r, (insertAll [5, 10, 3, 4, 7, 12, 15]).find (5 : Int) = NodePtr.node l r 5) ∧
    ((15 : Int) ∈ [5, 10, 3, 4, 7, 12, 15] ∧
      ∃ l r, (insertAll [5, 10, 3, 4, 7, 12, 15]).find (15 : Int) = NodePtr.node l r 15) ∧
    ((4 : Int) ∈ [5, 10, 3, 4, 7, 12, 15] ∧
      ∃ l r, (insertAll [5, 10, 3, 4, 7, 12, 15]).find (4 : Int) = NodePtr.node l r 4) ∧
    (insertAll [5, 10, 3, 4, 7, 12, 15]).find (4 : Int)
      = NodePtr.node NodePtr.null NodePtr.null 4 :=
  ⟨⟨by decide, C3_find_returns_inserted_value _ _ (by decide)⟩,
    ⟨by decide, C3_find_returns_inserted_value _ _ (by decide)⟩,
    ⟨by decide, C3_find_returns_inserted_value _ _ (by decide)⟩, by decide⟩

/-- C4: after inserting the elements of `xs` in order into an empty tree,
`find(v)` for a value `v` that does not occur in `xs` returns the null pointer. -/
theorem C4_find_absent_is_null (xs : List T) (v : T) (h : v ∉ xs) :
    (insertAll xs).find v = NodePtr.null :=
  _find_of_not_mem v _ (fun hm => h ((toList_insertAll_perm xs).mem_iff.1 hm))

theorem C4_find_absent_is_null_witness :
    (1000 : Int) ∉ [5, 10, 3, 4, 7, 12, 15] ∧
      (insertAll [5, 10, 3, 4, 7, 12, 15]).find (1000 : Int) = NodePtr.null :=
  ⟨by decide, C4_find_absent_is_null _ _ (by decide)⟩

/-- C5: `BreadthFirstSearch()` returns the stored values in level order: the
values of the nodes at depth 0, then those at depth 1, and so on up to the
height of the tree, each level from left to right.  The loop does so for every
element type; after inserting 5,10,3,4,7,12,15 the result is
[5,3,10,4,7,12,15]. -/
theorem C5_breadth_first_is_level_order :
    (∀ t : BinarySearchTree Int, t.BreadthFirstSearch
      = (List.range (t.m_head.height + 1)).flatMap fun d => NodePtr.levelAt d t.m_head) ∧
    (∀ (α : Type) (t : NodePtr α), bfsValues t
      = (List.range (t.height + 1)).flatMap fun d => NodePtr.levelAt d t) ∧
    (insertAll [5, 10, 3, 4, 7, 12, 15] : BinarySearchTree Int).BreadthFirstSearch
      = [5, 3, 10, 4, 7, 12, 15] := by
  refine ⟨fun t => bfsValues_eq_levelOrder t.m_head, fun α t => bfsValues_eq_levelOrder t, ?_⟩
  simp [insertAll, BinarySearchTree.insert, BinarySearchTree.empty, insertLoop, initialParent,
    attach, BinarySearchTree.BreadthFirstSearch, bfsValues, bfsLoop, bfsStep, pushBackIf]

/-- C6: after inserting the `n` elements of a list (duplicates included) in
order into an empty tree, `inOrder()` and `BreadthFirstSearch()` both have
length exactly `n`. -/
theorem C6_traversal_lengths :
    (∀ xs : List Int, (insertAll xs).inOrder.length = xs.length ∧
      (insertAll xs).BreadthFirstSearch.length = xs.length) ∧
    ∀ (α : Type) [LinearOrder α] (xs : List α),
      (insertAll xs).inOrder.length = xs.length ∧
        (bfsValues (insertAll xs).m_head).length = xs.length := by
  have key : ∀ (α : Type) [LinearOrder α] (xs : List α),
      (insertAll xs).inOrder.length = xs.length ∧
        (bfsValues (insertAll xs).m_head).length = xs.length := by
    intro α _ xs
    have hp := (toList_insertAll_perm xs).length_eq
    exact ⟨by rw [inOrder_eq_toList, hp], by rw [(bfsValues_perm _).length_eq, hp]⟩
  exact ⟨fun xs => key Int xs, key⟩

/-- C7: on a freshly constructed tree `inOrder()` is empty, `BreadthFirstSearch()`
is empty, and `find(v)` is null for every `v`. -/
theorem C7_empty_tree :
    (BinarySearchTree.empty : BinarySearchTree Int).inOrder = [] ∧
    (BinarySearchTree.empty : BinarySearchTree Int).BreadthFirstSearch = [] ∧
    (∀ v : Int, (BinarySearchTree.empty : BinarySearchTree Int).find v = NodePtr.null) ∧
    ∀ (α : Type) [LinearOrder α], (BinarySearchTree.empty : BinarySearchTree α).inOrder = [] ∧
      bfsValues (BinarySearchTree.empty : BinarySearchTree α).m_head = [] ∧
      ∀ v : α, (BinarySearchTree.empty : BinarySearchTree α).find v = NodePtr.null :=
  ⟨rfl, rfl, fun _ => rfl, fun _ _ => ⟨rfl, rfl, fun _ => rfl⟩⟩

/-- C8: `insert(v)` leaves every existing node in place: a path that leads to a
node of the tree leads to a node with the same value afterwards; the tree has
exactly one node more; and there is a path `p` that was an absent child slot of
the tree before (or its empty root) at which the tree afterwards has a leaf
holding `v`, every other path leading to what it led to before. -/
theorem C8_insert_frame (t : BinarySearchTree T) (v : T) :
    (∀ p x, t.m_head.valueAt p = some x → (t.insert v).m_head.valueAt p = some x) ∧
    (t.insert v).m_head.size = t.m_head.size + 1 ∧
    ∃ p, t.m_head.IsSlot p ∧
      (t.insert v).m_head.getAt p = NodePtr.node NodePtr.null NodePtr.null v ∧
      ∀ q, q ≠ p → (t.insert v).m_head.valueAt q = t.m_head.valueAt q := by
  rw [insert_m_head]
  refine ⟨?_, size_insertRec v _, insertSlot v t.m_head, isSlot_insertSlot v _,
    getAt_insertRec_slot v _, ?_⟩
  · intro p x hx
    rw [valueAt_insertRec]
    split
    · next hp =>
      rw [hp, NodePtr.valueAt, getAt_insertSlot] at hx
      cases hx
    · exact hx
  · intro q hq
    rw [valueAt_insertRec, if_neg hq]

/-- C9: on a tree that satisfies the BST invariant, `inOrder()` after
`insert(v)` is `inOrder()` before with `v` put right after the longest prefix of
elements less than or equal to `v`; every element behind it is greater than `v`,
so `v` comes after every stored element equal to it.  A node that already holds
`v` gets the new leaf in its right subtree. -/
theorem C9_insert_inOrder_position (t : BinarySearchTree T) (v : T) (h : t.m_head.IsBST) :
    (t.insert v).inOrder = t.inOrder.takeWhile (fun x => decide (x ≤ v))
      ++ v :: t.inOrder.dropWhile (fun x => decide (x ≤ v)) ∧
    (∀ x ∈ t.inOrder.dropWhile (fun x => decide (x ≤ v)), v < x) ∧
    ∀ p l r, t.m_head.getAt p = NodePtr.node l r v →
      ∃ q, t.m_head.IsSlot (p ++ Dir.right :: q) ∧
        (t.insert v).m_head.getAt (p ++ Dir.right :: q)
          = NodePtr.node NodePtr.null NodePtr.null v := by
  obtain ⟨pre, post, e1, e2, h1, h2⟩ := toList_insertRec_split v t.m_head h
  have htake : (pre ++ post).takeWhile (fun x => decide (x ≤ v)) = pre := by
    rw [List.takeWhile_append_of_pos (by simpa using h1)]
    cases post with
    | nil => simp
    | cons a post =>
      have := h2 a (List.mem_cons_self _ _)
      rw [List.takeWhile_cons_of_neg (by simpa using this)]
      simp
  have hdrop : (pre ++ post).dropWhile (fun x => decide (x ≤ v)) = post := by
    rw [List.dropWhile_append_of_pos (by simpa using h1)]
    cases post with
    | nil => simp
    | cons a post =>
      have := h2 a (List.mem_cons_self _ _)
      rw [List.dropWhile_cons_of_neg (by simpa using this)]
  rw [inOrder_eq_toList, inOrder_eq_toList, insert_m_head, e1, htake, hdrop]
  refine ⟨e2, h2, ?_⟩
  intro p l r hp
  refine ⟨insertSlot v r, ?_, ?_⟩
  · rw [← insertSlot_of_getAt _ h p l r v hp]
    exact isSlot_insertSlot v _
  · rw [← insertSlot_of_getAt _ h p l r v hp]
    exact getAt_insertRec_slot v _

theorem C9_insert_inOrder_position_witness :
    (insertAll [5, 10, 3] : BinarySearchTree Int).m_head.IsBST ∧
    (insertAll [5, 10, 3] : BinarySearchTree Int).inOrder = [3, 5, 10] ∧
    ((insertAll [5, 10, 3] : BinarySearchTree Int).insert 5).inOrder
      = [3, 5] ++ 5 :: [10] ∧
    ((insertAll [5, 10, 3] : BinarySearchTree Int).insert 5).inOrder
      = (insertAll [5, 10, 3] : BinarySearchTree Int).inOrder.takeWhile (fun x => decide (x ≤ 5))
        ++ 5 :: (insertAll [5, 10, 3] : BinarySearchTree Int).inOrder.dropWhile
          (fun x => decide (x ≤ 5)) :=
  ⟨by decide, by decide, by decide,
    (C9_insert_inOrder_position (insertAll [5, 10, 3]) 5 (by decide)).1⟩

/-- C10: on a tree of strings the loop of `BreadthFirstSearch` leaves the stored
strings themselves, in level order, in its local `values`; the member function
declares the return type `std::vector<int>`, so it exists for `int` trees only
and its result is a list of integers. -/
theorem C10_bfs_values_of_string_tree :
    bfsValues (insertAll ["abc", "zyx", "defg", ""] : BinarySearchTree String).m_head
      = ["abc", "", "zyx", "defg"] := by
  simp +decide [insertAll, BinarySearchTree.insert, BinarySearchTree.empty, insertLoop,
    initialParent, attach, bfsValues, bfsLoop, bfsStep, pushBackIf]

/-- C11: in a tree that satisfies the BST invariant, for a value `v` stored at
some position `q`, `find(v)` returns a node that holds `v`, and `q` is either
that node or a position in its right subtree, hence strictly deeper: the node
returned is the shallowest node that holds `v`, and every other node that holds
`v` is one of its proper descendants. -/
theorem C11_find_returns_shallowest (t : BinarySearchTree T) (v : T) (h : t.m_head.IsBST)
    (q : List Dir) (hq : t.m_head.valueAt q = some v) :
    ∃ p, t.findPath v = some p ∧ t.m_head.getAt p = t.find v ∧
      t.m_head.valueAt p = some v ∧
      (q = p ∨ ∃ s, q = p ++ Dir.right :: s) ∧ (q ≠ p → p.length < q.length) := by
  obtain ⟨p, hp, hpq⟩ := findPath_shallowest v t.m_head h q hq
  refine ⟨p, hp, ?_, valueAt_findPath v _ p hp, hpq, ?_⟩
  · rw [BinarySearchTree.find, _find_eq_getAt_findPath, hp]
  · intro hne
    rcases hpq with rfl | ⟨s, rfl⟩
    · exact absurd rfl hne
    · simp

theorem C11_find_returns_shallowest_witness :
    (insertAll [5, 3, 5, 8, 5] : BinarySearchTree Int).m_head.IsBST ∧
    (insertAll [5, 3, 5, 8, 5] : BinarySearchTree Int).m_head.valueAt
      [Dir.right, Dir.right, Dir.left] = some 5 ∧
    (insertAll [5, 3, 5, 8, 5] : BinarySearchTree Int).findPath 5 = some [] ∧
    ∃ p, (insertAll [5, 3, 5, 8, 5] : BinarySearchTree Int).findPath 5 = some p ∧
      (insertAll [5, 3, 5, 8, 5] : BinarySearchTree Int).m_head.getAt p
        = (insertAll [5, 3, 5, 8, 5] : BinarySearchTree Int).find 5 ∧
      (insertAll [5, 3, 5, 8, 5] : BinarySearchTree Int).m_head.valueAt p = some 5 ∧
      ([Dir.right, Dir.right, Dir.left] = p ∨
        ∃ s, [Dir.right, Dir.right, Dir.left] = p ++ Dir.right :: s) ∧
      ([Dir.right, Dir.right, Dir.left] ≠ p →
        p.length < [Dir.right, Dir.right, Dir.left].length) :=
  ⟨by decide, by decide, by decide,
    C11_find_returns_shallowest (insertAll [5, 3, 5, 8, 5]) 5 (by decide)
      [Dir.right, Dir.right, Dir.left] (by decide)⟩

/-- C12 (as amended): when `v` is inserted for the first time after the values
`pre`, and any values `post` (further copies of `v` included) are inserted
afterwards, `find(v)` returns the node that this first insertion of `v` created:
the leaf put at what was an absent slot of the tree built from `pre`. -/
theorem C12_find_returns_first_inserted (pre post : List T) (v : T) (h : v ∉ pre) :
    (insertAll pre).m_head.IsSlot (insertSlot v (insertAll pre).m_head) ∧
    (insertAll (pre ++ [v])).m_head.getAt (insertSlot v (insertAll pre).m_head)
      = NodePtr.node NodePtr.null NodePtr.null v ∧
    (insertAll (pre ++ v :: post)).findPath v
      = some (insertSlot v (insertAll pre).m_head) := by
  refine ⟨isSlot_insertSlot v _, ?_, findPath_insertAll_first pre post v h⟩
  rw [insertAll_append_singleton, insert_m_head]
  exact getAt_insertRec_slot v _

theorem C12_find_returns_first_inserted_witness :
    (7 : Int) ∉ [5, 3] ∧
    (insertAll ([5, 3] ++ (7 : Int) :: [7, 1, 7])).findPath 7 = some [Dir.right] ∧
    (insertAll ([5, 3] ++ (7 : Int) :: [7, 1, 7])).findPath 7
      = some (insertSlot 7 (insertAll [5, 3]).m_head) :=
  ⟨by decide, by decide, (C12_find_returns_first_inserted [5, 3] [7, 1, 7] (7 : Int)
    (by decide)).2.2⟩

/-- C12 (as stated) fails: for no element type and no sequence of insertions in
which `v` is inserted a first time and then again does `find(v)` return a node
other than the one the first insertion of `v` created. -/
theorem C12_no_later_duplicate_is_found :
    ¬ ∃ (α : Type) (_ : LinearOrder α) (pre post : List α) (v : α),
      v ∉ pre ∧ v ∈ post ∧
        (insertAll (pre ++ v :: post)).findPath v
          ≠ some (insertSlot v (insertAll pre).m_head) := by
  rintro ⟨α, _, pre, post, v, h, -, hne⟩
  exact hne (findPath_insertAll_first pre post v h)

/-- C13: `insert` as coded builds the same tree as the recursive insertion, for
every tree and value.  When the tree is empty the loop leaves `parent` null and
the new node becomes the root; otherwise the loop leaves `parent` at a node of
the tree whose child link on the side chosen by `value < parent->value` is null
and is the slot where the descent stopped, so the assignment overwrites no
existing child. -/
theorem C13_insert_refines_recursive (t : BinarySearchTree T) (v : T) :
    (t.insert v).m_head = insertRec v t.m_head ∧
    ((t.m_head = NodePtr.null ∧ insertLoop v t.m_head [] (initialParent t.m_head) = none) ∨
      ∃ p l r w, insertLoop v t.m_head [] (initialParent t.m_head) = some p ∧
        t.m_head.getAt p = NodePtr.node l r w ∧
        ((v < w ∧ l = NodePtr.null ∧ insertSlot v t.m_head = p ++ [Dir.left]) ∨
          (¬ v < w ∧ r = NodePtr.null ∧ insertSlot v t.m_head = p ++ [Dir.right]))) := by
  refine ⟨insert_m_head t v, ?_⟩
  by_cases ht : t.m_head = NodePtr.null
  · left
    exact ⟨ht, by rw [ht]; rfl⟩
  · right
    obtain ⟨q, l, r, w, hq, hg, hside⟩ :=
      insertLoop_parent v t.m_head ht [] (initialParent t.m_head)
    exact ⟨q, l, r, w, by simpa using hq, hg, hside⟩

/-- C14: inserting a non-decreasing list of `n` values in order into an empty
tree gives a degenerate tree: no node has a left child, the longest path from
the root down has exactly `n` nodes, and `inOrder()` and the breadth-first
traversal both return the list itself. -/
theorem C14_sorted_input_degenerates (xs : List T) (h : xs.Sorted (· ≤ ·)) :
    (∀ p l r v, (insertAll xs).m_head.getAt p = NodePtr.node l r v → l = NodePtr.null) ∧
    (insertAll xs).m_head.height = xs.length ∧
    (insertAll xs).inOrder = xs ∧
    bfsValues (insertAll xs).m_head = xs ∧
    ∀ ys : List Int, ys.Sorted (· ≤ ·) →
      (insertAll ys).BreadthFirstSearch = ys ∧ (insertAll ys).inOrder = ys := by
  refine ⟨?_, ?_, ?_, ?_, ?_⟩
  · rw [insertAll_sorted xs h]; exact getAt_rightSpine xs
  · rw [insertAll_sorted xs h]; exact height_rightSpine xs
  · rw [inOrder_eq_toList, insertAll_sorted xs h]; exact toList_rightSpine xs
  · rw [insertAll_sorted xs h]; exact bfsValues_rightSpine xs
  · intro ys hys
    constructor
    · rw [BinarySearchTree.BreadthFirstSearch, insertAll_sorted ys hys]
      exact bfsValues_rightSpine ys
    · rw [inOrder_eq_toList, insertAll_sorted ys hys]; exact toList_rightSpine ys

theorem C14_sorted_input_degenerates_witness :
    ([1, 2, 2, 5] : List Int).Sorted (· ≤ ·) ∧
    (insertAll ([1, 2, 2, 5] : List Int)).m_head
      = NodePtr.node NodePtr.null (NodePtr.node NodePtr.null (NodePtr.node NodePtr.null
          (NodePtr.node NodePtr.null NodePtr.null 5) 2) 2) 1 ∧
    (insertAll ([1, 2, 2, 5] : List Int)).m_head.height = 4 ∧
    (insertAll ([1, 2, 2, 5] : List Int)).inOrder = [1, 2, 2, 5] ∧
    bfsValues (insertAll ([1, 2, 2, 5] : List Int)).m_head = [1, 2, 2, 5] :=
  ⟨by decide, by decide,
    (C14_sorted_input_degenerates ([1, 2, 2, 5] : List Int) (by decide)).2.1,
    (C14_sorted_input_degenerates ([1, 2, 2, 5] : List Int) (by decide)).2.2.1,
    (C14_sorted_input_degenerates ([1, 2, 2, 5] : List Int) (by decide)).2.2.2.1⟩

/-- C15: on a tree with `n` nodes the loop of `BreadthFirstSearch`, started with
the deque holding only the root, makes exactly `n` iterations: each of the first
`n` finds the deque non-empty when it reads the front, after them the deque is
empty, the loop condition fails and `values` is the result.  The run on the tree
whose nodes carry their positions is the same run; it shows that the positions
taken from the deque are those of the nodes of the tree, each once, that the
value recorded with each is the value of that node, and that at every state the
nodes dequeued so far followed by those on the deque are an initial part of the
final order without repetition, so that every node is put on the deque once and
taken from it once. -/
theorem C15_bfs_loop_terminates (α : Type) (t : NodePtr α) :
    (∃ s, bfsRun t.size (bfsInit t) = some s ∧ s.d = [] ∧ bfsStep s = none ∧
      s.values = bfsValues t) ∧
    (∀ k, k < t.size → ∃ s, bfsRun k (bfsInit t) = some s ∧ s.d ≠ []) ∧
    (∀ k, (bfsRun k (bfsInit t.withPaths)).map (BfsState.map Prod.snd)
      = bfsRun k (bfsInit t)) ∧
    (dequeueOrder t).length = t.size ∧
    (dequeueOrder t).Nodup ∧
    (∀ p, p ∈ dequeueOrder t ↔ t.getAt p ≠ NodePtr.null) ∧
    (dequeueOrder t).map t.valueAt = (bfsValues t).map some ∧
    ∀ k s, bfsRun k (bfsInit t.withPaths) = some s →
      ∃ rest, bfsValues t.withPaths = s.values ++ s.d.map BinaryNode.value ++ rest := by
  refine ⟨?_, ?_, ?_, ?_, ?_, ?_, ?_, ?_⟩
  · obtain ⟨⟨s, hrun, hd, hv⟩, -⟩ := bfsRun_weight t.size (bfsInit t) (queueWeight_bfsInit t)
    refine ⟨s, hrun, hd, ?_, by rw [hv, bfsValues_eq_bfsLoop]⟩
    obtain ⟨d, values⟩ := s
    simp only at hd
    rw [hd]
    rfl
  · exact (bfsRun_weight t.size (bfsInit t) (queueWeight_bfsInit t)).2
  · intro k
    rw [← bfsRun_map, ← bfsInit_map, withPaths_map_snd]
  · rw [(dequeueOrder_perm t).length_eq, List.length_map, length_toList]
    conv_rhs => rw [← withPaths_map_snd t, size_map]
  · exact (dequeueOrder_perm t).nodup_iff.2 (nodup_positions t)
  · intro p
    rw [(dequeueOrder_perm t).mem_iff]
    exact mem_positions_iff t p
  · have hv : bfsValues t = (bfsValues t.withPaths).map Prod.snd := by
      rw [← bfsValues_map, withPaths_map_snd]
    rw [hv, dequeueOrder, List.map_map, List.map_map]
    apply List.map_congr_left
    intro y hy
    exact valueAt_of_mem_withPaths t y.1 y.2 ((bfsValues_perm t.withPaths).mem_iff.1 hy)
  · intro k s hs
    rw [bfsValues_eq_bfsLoop]
    exact bfsLoop_prefix_of_run k _ s hs

/-- C16: for every tree, with or without the BST invariant, what
`BreadthFirstSearch()` returns is a permutation of what `inOrder()` returns. -/
theorem C16_breadth_first_perm_inOrder :
    (∀ t : BinarySearchTree Int, t.BreadthFirstSearch.Perm t.inOrder) ∧
    (∀ (α : Type) (t : BinarySearchTree α), (bfsValues t.m_head).Perm t.inOrder) ∧
    (⟨NodePtr.node (NodePtr.node NodePtr.null NodePtr.null 9)
        (NodePtr.node (NodePtr.node NodePtr.null NodePtr.null 7) NodePtr.null 1) 4⟩ :
      BinarySearchTree Int).BreadthFirstSearch = [4, 9, 1, 7] ∧
    (⟨NodePtr.node (NodePtr.node NodePtr.null NodePtr.null 9)
        (NodePtr.node (NodePtr.node NodePtr.null NodePtr.null 7) NodePtr.null 1) 4⟩ :
      BinarySearchTree Int).inOrder = [9, 4, 7, 1] := by
  refine ⟨fun t => ?_, fun α t => ?_, ?_, by decide⟩
  · rw [inOrder_eq_toList]; exact bfsValues_perm t.m_head
  · rw [inOrder_eq_toList]; exact bfsValues_perm t.m_head
  · simp [BinarySearchTree.BreadthFirstSearch, bfsValues, bfsLoop, bfsStep, pushBackIf]

/-- C17: inserting `v` does not change the outcome of looking up another value
`w`: `find(w)` returns the same position after the insertion as before, so it is
null after exactly when it was null before, and when it is not the node at that
position holds `w` before and after.  This holds on every tree, in particular on
those that satisfy the BST invariant. -/
theorem C17_insert_keeps_other_lookups (t : BinarySearchTree T) (v w : T) (hne : w ≠ v) :
    (t.insert v).findPath w = t.findPath w ∧
    ((t.insert v).find w = NodePtr.null ↔ t.find w = NodePtr.null) ∧
    ∀ p, t.findPath w = some p →
      t.m_head.getAt p = t.find w ∧ (t.insert v).m_head.getAt p = (t.insert v).find w ∧
      t.m_head.valueAt p = some w ∧ (t.insert v).m_head.valueAt p = some w := by
  have key : (t.insert v).findPath w = t.findPath w := by
    rw [BinarySearchTree.findPath, insert_m_head]
    exact findPath_insertRec_of_ne v w hne _
  refine ⟨key, ?_, ?_⟩
  · rw [BinarySearchTree.find, BinarySearchTree.find, ← findPath_eq_none_iff,
      ← findPath_eq_none_iff]
    have key' : _findPath w (t.insert v).m_head = _findPath w t.m_head := key
    rw [key']
  · intro p hp
    have hp' : (t.insert v).findPath w = some p := key.trans hp
    refine ⟨?_, ?_, valueAt_findPath w _ p hp, valueAt_findPath w _ p hp'⟩
    · rw [BinarySearchTree.find, _find_eq_getAt_findPath]
      rw [BinarySearchTree.findPath] at hp
      rw [hp]
    · rw [BinarySearchTree.find, _find_eq_getAt_findPath]
      rw [BinarySearchTree.findPath] at hp'
      rw [hp']

theorem C17_insert_keeps_other_lookups_witness :
    (10 : Int) ≠ 6 ∧
    (insertAll [5, 10, 3] : BinarySearchTree Int).findPath 10 = some [Dir.right] ∧
    ((insertAll [5, 10, 3] : BinarySearchTree Int).insert 6).findPath 10
      = (insertAll [5, 10, 3] : BinarySearchTree Int).findPath 10 ∧
    ((insertAll [5, 10, 3] : BinarySearchTree Int).insert 6).m_head.valueAt [Dir.right]
      = some 10 :=
  ⟨by decide, by decide,
    (C17_insert_keeps_other_lookups (insertAll [5, 10, 3]) (6 : Int) 10 (by decide)).1,
    by decide⟩

/-- C18: after inserting a non-empty list into an empty tree the root holds the
first element of the list, whatever is inserted after it, and the breadth-first
traversal starts with that element. -/
theorem C18_root_is_first_inserted (x : T) (xs : List T) :
    (∃ l r, (insertAll (x :: xs)).m_head = NodePtr.node l r x) ∧
    (insertAll (x :: xs)).m_head.valueAt [] = some x ∧
    (bfsValues (insertAll (x :: xs)).m_head).head? = some x ∧
    ∀ (y : Int) (ys : List Int), (insertAll (y :: ys)).BreadthFirstSearch.head? = some y := by
  obtain ⟨l, r, h⟩ := root_insertAll x xs
  refine ⟨⟨l, r, h⟩, by rw [h]; rfl, by rw [h]; exact head_bfsValues l r x, ?_⟩
  intro y ys
  obtain ⟨l', r', h'⟩ := root_insertAll y ys
  rw [BinarySearchTree.BreadthFirstSearch, h']
  exact head_bfsValues l' r' y

end Claims

end BSTree
